import Mathlib

/-!
Verification of the fuse-archive archive-access engine (src/main.cc) against
its natural-language specification. The C++ code is shallowly embedded:
pure functions become Lean functions on `Int`/`Nat`/`List`, stateful code is
explicit state passing, and interactions with the external libarchive
library are modelled by explicit oracle parameters (e.g. the list of byte
counts returned by successive `archive_read_data` calls).
-/

/-! ## Compile-time configuration and platform constants (main.cc)  -/

def SIDE_BUFFER_SIZE : Int := 131072

def NUM_SIDE_BUFFERS : Nat := 8

def NUM_SAVED_READERS : Nat := 8

def INT_MAX : Nat := 2147483647

def UINT64_MAX : Nat := 18446744073709551615

/-- errno value EIO, as used by the FUSE callbacks (`-EIO` is `-errno_io`).
Named `errno_io` because `EIO` collides with a Lean core name. -/
def errno_io : Int := 5

/-- errno value EINVAL. -/
def errno_inval : Int := 22

/-- POSIX file-type masks used by main.cc via S_ISDIR / S_ISREG / S_ISLNK. -/
def S_IFMT : Nat := 0o170000

def S_IFDIR : Nat := 0o040000

def S_IFREG : Nat := 0o100000

def S_IFLNK : Nat := 0o120000

def S_IFBLK : Nat := 0o060000

def S_IFCHR : Nat := 0o020000

def S_IFIFO : Nat := 0o010000

def S_IFSOCK : Nat := 0o140000

/-- `static constexpr blksize_t block_size = 512;` -/
def block_size : Int := 512

/-! ## Exit codes (main.cc enum) -/

def EXIT_CODE_GENERIC_FAILURE : Nat := 1

def EXIT_CODE_CANNOT_OPEN_ARCHIVE : Nat := 11

def EXIT_CODE_PASSPHRASE_REQUIRED : Nat := 20

def EXIT_CODE_PASSPHRASE_INCORRECT : Nat := 21

def EXIT_CODE_PASSPHRASE_NOT_SUPPORTED : Nat := 22

def EXIT_CODE_INVALID_RAW_ARCHIVE : Nat := 30

def EXIT_CODE_INVALID_ARCHIVE_HEADER : Nat := 31

def EXIT_CODE_INVALID_ARCHIVE_CONTENTS : Nat := 32

/-! ## determine_passphrase_exit_code (main.cc lines 343-370)

Libarchive error messages are modelled as `List Char`; `e.starts_with(p)`
is `List.isPrefixOf p e`. -/

def msg_incorrect_passphrase : List Char := "Incorrect passphrase".toList

def msg_passphrase_required : List Char := "Passphrase required".toList

def not_supported_messages : List (List Char) :=
  [ "Crypto codec not supported".toList,
    "Decryption is unsupported".toList,
    "Encrypted file is unsupported".toList,
    "Encryption is not supported".toList,
    "RAR encryption support unavailable".toList,
    "The archive header is encrypted, but currently not supported".toList,
    "The file content is encrypted, but currently not supported".toList,
    "Unsupported encryption format".toList ]

def determine_passphrase_exit_code (e : List Char) : Nat :=
  if msg_incorrect_passphrase.isPrefixOf e then EXIT_CODE_PASSPHRASE_INCORRECT
  else if msg_passphrase_required.isPrefixOf e then EXIT_CODE_PASSPHRASE_REQUIRED
  else if not_supported_messages.any (fun p => p.isPrefixOf e) then
    EXIT_CODE_PASSPHRASE_NOT_SUPPORTED
  else EXIT_CODE_INVALID_ARCHIVE_CONTENTS

def S_ISDIR (mode : Nat) : Bool := mode &&& S_IFMT == S_IFDIR
def S_ISLNK (mode : Nat) : Bool := mode &&& S_IFMT == S_IFLNK
def S_ISBLK (mode : Nat) : Bool := mode &&& S_IFMT == S_IFBLK
def S_ISCHR (mode : Nat) : Bool := mode &&& S_IFMT == S_IFCHR
def S_ISFIFO (mode : Nat) : Bool := mode &&& S_IFMT == S_IFIFO
def S_ISSOCK (mode : Nat) : Bool := mode &&& S_IFMT == S_IFSOCK

/-! ## valid_pathname / normalize_pathname (main.cc lines 952-1031)

Pathnames are modelled as `List Char`.  `valid_fragments_scan` is the
fragment loop of valid_pathname: `frag` is the fragment accumulated between
the q and r pointers so far. -/
def fragment_invalid : List Char → Bool
  | [] => true
  | ['.'] => true
  | ['.', '.'] => true
  | _ => false

def valid_fragments_scan (allow_slashes : Bool) (frag : List Char) : List Char → Bool
  | [] => !fragment_invalid frag
  | c :: rest =>
    if c = '/' then
      if allow_slashes = false then false
      else if fragment_invalid frag then false
      else valid_fragments_scan allow_slashes [] rest
    else valid_fragments_scan allow_slashes (frag ++ [c]) rest

def lead_dotslash (p : List Char) : Prop := p[0]? = some '.' ∧ p[1]? = some '/'
def lead_slash (p : List Char) : Prop := p[0]? = some '/'
instance (p : List Char) : Decidable (lead_dotslash p) := by
  unfold lead_dotslash; infer_instance
instance (p : List Char) : Decidable (lead_slash p) := by
  unfold lead_slash; infer_instance

def valid_pathname (p : List Char) (allow_slashes : Bool) : Bool :=
  if lead_dotslash p then
    allow_slashes && valid_fragments_scan allow_slashes [] p.tail.tail
  else if lead_slash p then
    allow_slashes && valid_fragments_scan allow_slashes [] p.tail
  else
    valid_fragments_scan allow_slashes [] p

def normalize_pathname (s : List Char) : List Char :=
  if valid_pathname s true then
    if lead_dotslash s then s.tail
    else if lead_slash s then s
    else '/' :: s
  else []

def componentsAux (frag : List Char) : List Char → List (List Char)
  | [] => [frag]
  | c :: rest =>
    if c = '/' then frag :: componentsAux [] rest
    else componentsAux (frag ++ [c]) rest

def componentsOf (cs : List Char) : List (List Char) := componentsAux [] cs

/-- Spec-side: the body of a pathname after tolerating a leading "./" or "/". -/
def strip_lead (p : List Char) : List Char :=
  if lead_dotslash p then p.tail.tail
  else if lead_slash p then p.tail
  else p

/- ---- In-memory directory tree ---- -/

/-- One archive-derived node of the in-memory tree (struct Node of main.cc).
The parent / child / sibling links are represented by the pathname keys of
`nodes_by_name`; `size` accumulation via add_child is modelled explicitly. -/
structure TNode where
  rel_name : List Char
  symlink : List Char
  index_within_archive : Int
  size : Int
  mtime : Int
  mode : Nat
deriving Repr, DecidableEq

def TNode.is_dir (n : TNode) : Bool := S_ISDIR n.mode

/-- `Node::get_block_count`. -/
def node_block_count (n : TNode) : Int := (n.size + (block_size - 1)) / block_size

/-- Absolute pathnames are represented by their slash-separated component
lists ([] is the root "/"). -/
abbrev PathKey := List (List Char)

/-- The global tree state: g_nodes_by_name, g_nodes_by_index, g_block_count. -/
structure TreeState where
  nodes_by_name : List (PathKey × TNode)
  nodes_by_index : List (Option TNode)
  block_count : Int
deriving Repr, DecidableEq

def tree_find (byName : List (PathKey × TNode)) (k : PathKey) : Option TNode :=
  (byName.find? (fun kv => decide (kv.1 = k))).map (fun kv => kv.2)

def tree_update (byName : List (PathKey × TNode)) (k : PathKey) (f : TNode → TNode) :
    List (PathKey × TNode) :=
  byName.map (fun kv => if kv.1 = k then (kv.1, f kv.2) else kv)

/-- `std::vector::resize(index)` on nodes_by_index. -/
def index_resize (l : List (Option TNode)) (n : Nat) : List (Option TNode) :=
  l.take n ++ List.replicate (n - l.length) none

/-- The per-ancestor update of the insert_leaf_node loop body: raise mtime
to the entry's mtime, widen mode with its branch_mode. -/
def walk_update_node (mtime : Int) (branch_mode : Nat) (n : TNode) : TNode :=
  { n with mtime := if n.mtime < mtime then mtime else n.mtime,
           mode := n.mode ||| branch_mode }

/-- Node::add_child charges one block_size unit to the parent. -/
def size_bump (n : TNode) : TNode := { n with size := n.size + block_size }

/-- The loop body of insert_leaf_node: walk pathname components downward
from the root, updating each visited ancestor (mtime max, mode widening)
before the collision checks, creating missing implicit directories, and
finally inserting the leaf. -/
def insert_walk (symlink : List Char) (index_within_archive size mtime : Int)
    (branch_mode leaf_mode : Nat) :
    TreeState → PathKey → List (List Char) → TreeState
  | st, parentPath, comps =>
    let st1 : TreeState :=
      { st with
        nodes_by_name := tree_update st.nodes_by_name parentPath
          (walk_update_node mtime branch_mode) }
    match comps with
    | [] => st1
    | [last] =>
      let abs := parentPath ++ [last]
      match tree_find st1.nodes_by_name abs with
      | some _ => st1
      | none =>
        let leaf : TNode :=
          ⟨last, symlink, index_within_archive, size, mtime, leaf_mode⟩
        let st2 := { st1 with nodes_by_name := st1.nodes_by_name ++ [(abs, leaf)] }
        let st3 := { st2 with
                     nodes_by_name := tree_update st2.nodes_by_name parentPath
                       size_bump }
        { st3 with
          block_count := st3.block_count + node_block_count leaf + 1,
          nodes_by_index :=
            index_resize st3.nodes_by_index index_within_archive.toNat ++ [some leaf] }
    | c :: rest =>
      let abs := parentPath ++ [c]
      match tree_find st1.nodes_by_name abs with
      | some n =>
        if n.is_dir then
          insert_walk symlink index_within_archive size mtime branch_mode leaf_mode
            st1 abs rest
        else st1
      | none =>
        let d : TNode := ⟨c, [], -1, 0, mtime, branch_mode⟩
        let st2 := { st1 with nodes_by_name := st1.nodes_by_name ++ [(abs, d)] }
        let st3 := { st2 with
                     nodes_by_name := tree_update st2.nodes_by_name parentPath
                       size_bump }
        insert_walk symlink index_within_archive size mtime branch_mode leaf_mode
          { st3 with block_count := st3.block_count + 1 } abs rest

/-- insert_leaf_node (main.cc lines 1033-1116). -/
def insert_leaf_node (st : TreeState) (pathname symlink : List Char)
    (index_within_archive size mtime : Int) (mode : Nat) : Int × TreeState :=
  if index_within_archive < 0 then (-errno_io, st)
  else
    let rx_bits := mode &&& 0o555
    let r_bits := rx_bits &&& 0o444
    let branch_mode := rx_bits ||| (r_bits >>> 2) ||| S_IFDIR
    let leaf_mode := rx_bits ||| (if symlink = [] then S_IFREG else S_IFLNK)
    match pathname with
    | [] => (0, st)
    | c :: body =>
      if c = '/' then
        (0, insert_walk symlink index_within_archive size mtime branch_mode leaf_mode
              st [] (componentsOf body))
      else (0, st)

/-- insert_leaf (main.cc lines 1118-1185). The size-unknown draining is
external library interaction; `size` here is the final measured size. -/
def insert_leaf (st : TreeState) (raw_pathname symlink_raw : List Char)
    (index_within_archive size mtime : Int) (mode : Nat) : Int × TreeState :=
  let pathname := normalize_pathname raw_pathname
  if pathname = [] then (0, st)
  else if S_ISBLK mode || S_ISCHR mode || S_ISFIFO mode || S_ISSOCK mode then (0, st)
  else
    let symlink := if S_ISLNK mode then symlink_raw else []
    if S_ISLNK mode ∧ symlink = [] then (0, st)
    else insert_leaf_node st pathname symlink index_within_archive size mtime mode

/-- One archive entry as seen by build_tree (pathname, symlink target,
decompressed size, mtime, mode). -/
structure EntrySpec where
  raw_pathname : List Char
  symlink : List Char
  size : Int
  mtime : Int
  mode : Nat
deriving Repr, DecidableEq

def root_node : TNode := ⟨[], [], -1, 0, 0, S_IFDIR⟩

def initial_tree : TreeState := ⟨[([], root_node)], [], 1⟩

/-- build_tree / pre_initialize header iteration: every header consumes one
archive index; directory entries are skipped; others are inserted. -/
def build_tree_aux : TreeState → Int → List EntrySpec → TreeState
  | st, _, [] => st
  | st, i, e :: rest =>
    if S_ISDIR e.mode then build_tree_aux st (i + 1) rest
    else
      let r := insert_leaf st e.raw_pathname e.symlink i e.size e.mtime e.mode
      if r.1 ≠ 0 then r.2 else build_tree_aux r.2 (i + 1) rest

def buildTree (entries : List EntrySpec) : TreeState :=
  build_tree_aux initial_tree 0 entries

/-- The read/execute bits of a stored leaf mode together with the mirrored
read bits: recovers the branch-mode permission bits the leaf propagated. -/
def branchBitsOf (mode : Nat) : Nat :=
  (mode &&& 0o555) ||| ((mode &&& 0o444) >>> 2)

/-- Invariant of the name map built by insert_leaf_node: the root is present
and a directory; every strict prefix of a present path is present and a
directory; mtimes are monotone along ancestry; every ancestor's mode
contains the directory-type bit together with the recovered branch bits of
each non-directory descendant. -/
def NameInv (L : List (PathKey × TNode)) : Prop :=
  (∃ rn, tree_find L [] = some rn ∧ rn.is_dir = true) ∧
  (∀ p n, tree_find L p = some n →
    ∀ q, q <+: p → q ≠ p →
    ∃ m, tree_find L q = some m ∧ m.is_dir = true) ∧
  (∀ p q n m, tree_find L p = some n →
    tree_find L q = some m → p <+: q → p ≠ q →
    m.mtime ≤ n.mtime) ∧
  (∀ p q n m, tree_find L p = some n →
    tree_find L q = some m → p <+: q → p ≠ q →
    m.is_dir = false →
    (branchBitsOf m.mode ||| S_IFDIR) ||| n.mode = n.mode)

/-- The C7 counterexample archive: a read-only regular file a/b followed by
an entry a/b/c colliding with it. -/
def c7_entries : List EntrySpec :=
  [⟨"a/b".toList, [], 3, 100, 0o100400⟩, ⟨"a/b/c".toList, [], 5, 200, 0o100044⟩]

/-- A small tree with a non-directory node /a, for collision witnesses. -/
def c10_st : TreeState :=
  ⟨[([], root_node), ([['a']], ⟨['a'], [], 0, 0, 0, S_IFREG⟩)], [], 1⟩


/-! ## Side buffers (main.cc lines 288-333, 592-638) -/

/-- struct side_buffer_metadata.  The per-buffer byte arrays
g_side_buffer_data are modelled separately where needed. -/
structure SBMeta where
  index_within_archive : Int
  offset_within_entry : Int
  length : Int
  lru_priority : Nat
deriving Repr, DecidableEq

/-- side_buffer_metadata::contains.  The `length` request argument is a
uint64_t in the source; `this->length - o >= length` compares int64 with
uint64 after the int64 is converted, which is faithful here because the
conversion only happens under the guard `this->length >= o`. -/
def SBMeta.contains (m : SBMeta) (idx off : Int) (len : Nat) : Bool :=
  if 0 ≤ m.index_within_archive ∧ m.index_within_archive = idx ∧
      m.offset_within_entry ≤ off then
    (decide (off - m.offset_within_entry ≤ m.length)) &&
      (decide ((len : Int) ≤ m.length - (off - m.offset_within_entry)))
  else false

/-- The metadata state a buffer acquired by acquire_side_buffer is given. -/
def acquired_meta : SBMeta := ⟨-1, -1, -1, UINT64_MAX⟩

/-- The metadata written when a decompression error hits advance_offset. -/
def failed_meta : SBMeta := ⟨-1, -1, -1, 0⟩

/-- The argmin scan of acquire_side_buffer (index of lowest lru_priority,
first wins ties). -/
def oldest_loop : List SBMeta → Nat → Nat × Nat → Nat × Nat
  | [], _, best => best
  | m :: rest, i, best =>
    oldest_loop rest (i + 1)
      (if best.2 > m.lru_priority then (i, m.lru_priority) else best)

/-- acquire_side_buffer: select the least recently used buffer, mark it
empty with maximal lru priority, return its index and the updated pool. -/
def acquire_side_buffer (metas : List SBMeta) : Nat × List SBMeta :=
  match metas with
  | [] => (0, [])
  | m0 :: _ =>
    let bi := (oldest_loop metas.tail 1 (0, m0.lru_priority)).1
    (bi, metas.set bi acquired_meta)

/-- The argmax scan of read_from_side_buffer: best (index, length) among
buffers that contain the request, starting from (-1, -1); a buffer wins
only with a strictly greater length. -/
def best_side_buffer_loop (idx off : Int) (len : Nat) :
    List SBMeta → Nat → Int × Int → Int × Int
  | [], _, best => best
  | m :: rest, i, best =>
    best_side_buffer_loop idx off len rest (i + 1)
      (if m.length > best.2 ∧ m.contains idx off len then ((i : Int), m.length)
       else best)

/-- read_from_side_buffer (main.cc lines 613-638).  `data b p` is byte p of
side buffer b (g_side_buffer_data).  On a hit the copied bytes, the updated
pool and the bumped lru counter are returned; on a miss, none. -/
def read_from_side_buffer (metas : List SBMeta) (data : Nat → Nat → Nat)
    (next_lru : Nat) (idx : Int) (len : Nat) (off : Int) :
    Option (List Nat) × List SBMeta × Nat :=
  let best := best_side_buffer_loop idx off len metas 0 (-1, -1)
  if best.1 ≥ 0 then
    let b := best.1.toNat
    match metas[b]? with
    | none => (none, metas, next_lru)
    | some m =>
      let o := off - m.offset_within_entry
      (some ((List.range len).map (fun j => data b (o.toNat + j))),
       metas.set b { m with lru_priority := next_lru + 1 },
       next_lru + 1)
  else (none, metas, next_lru)

/-! ## Reader (main.cc lines 640-793)

`hasArchive` models `archive != nullptr`, `hasEntry` models
`archive_entry != nullptr`. -/

structure RState where
  hasArchive : Bool
  hasEntry : Bool
  index_within_archive : Int
  offset_within_entry : Int
deriving Repr, DecidableEq

/-- The Reader constructed from a fresh archive_read_open_filename. -/
def fresh_reader : RState := ⟨true, false, -1, 0⟩

/-- Reader::read (main.cc lines 767-784).  `resp` is the value returned by
`archive_read_data` (the external library); a negative resp is a library
error (-EIO is returned), a resp larger than the request aborts the
process (modelled as none). -/
def reader_read (r : RState) (dst_len : Nat) (resp : Int) :
    Option (Int × RState) :=
  if resp < 0 then some (-errno_io, r)
  else if (dst_len : Int) < resp then none
  else some (resp, { r with offset_within_entry := r.offset_within_entry + resp })

/-- The header-advancing loop of Reader::advance_index.  `num_entries` is
the number of entries of the archive: archive_read_next_header succeeds
(with ARCHIVE_OK) while the resulting index is < num_entries and returns
ARCHIVE_EOF afterwards.  The fuel is (want - index).toNat, which is exactly
the number of loop iterations. -/
def advance_index_loop (num_entries : Nat) (want : Int) :
    Nat → RState → Option RState
  | 0, r => some r
  | fuel + 1, r =>
    if r.index_within_archive < want then
      if (num_entries : Int) ≤ r.index_within_archive + 1 then none
      else
        advance_index_loop num_entries want fuel
          { r with hasEntry := true,
                   index_within_archive := r.index_within_archive + 1,
                   offset_within_entry := 0 }
    else some r

/-- Reader::advance_index (main.cc lines 671-696). -/
def advance_index (num_entries : Nat) (r : RState) (want : Int) :
    Option RState :=
  if r.hasArchive = false then none
  else advance_index_loop num_entries want (want - r.index_within_archive).toNat r

/-- The dst_len computation of the advance_offset loop: if the remaining
distance exceeds SIDE_BUFFER_SIZE, take the non-multiple remainder first
(a full SIDE_BUFFER_SIZE if the distance is an exact multiple); otherwise
take the whole remaining distance. -/
def advance_chunk (d : Int) : Int :=
  if d > SIDE_BUFFER_SIZE then
    if d % SIDE_BUFFER_SIZE = 0 then SIDE_BUFFER_SIZE else d % SIDE_BUFFER_SIZE
  else d

/-- The decompression loop of Reader::advance_offset.  `resps` is the list
of values returned by the successive archive_read_data calls.  Returns
(success, reader, pool, lru counter, unconsumed resps); none models the
abort() on an oversized library read.  If resps runs out while the reader
is still short of `want`, the loop is reported as failed with everything
else untouched (the oracle was too short; this cannot arise for the resps
used in the theorems below). -/
def advance_offset_loop (want : Int) (sb : Nat) :
    List Int → RState → List SBMeta → Nat →
    Option (Bool × RState × List SBMeta × Nat × List Int)
  | resps, r, metas, ctr =>
    if want > r.offset_within_entry then
      match resps with
      | [] => some (false, r, metas, ctr, [])
      | resp :: rest =>
        let original_owe := r.offset_within_entry
        let dst_len := advance_chunk (want - original_owe)
        match reader_read r dst_len.toNat resp with
        | none => none
        | some (n, r1) =>
          if n < 0 then some (false, r1, metas.set sb failed_meta, ctr, rest)
          else
            advance_offset_loop want sb rest r1
              (metas.set sb
                ⟨r1.index_within_archive, original_owe, n, ctr + 1⟩)
              (ctr + 1)
    else some (true, r, metas, ctr, resps)

/-- Reader::advance_offset (main.cc lines 705-761). -/
def advance_offset (want : Int) (resps : List Int) (r : RState)
    (metas : List SBMeta) (ctr : Nat) :
    Option (Bool × RState × List SBMeta × Nat × List Int) :=
  if r.hasArchive = false ∨ r.hasEntry = false then
    some (false, r, metas, ctr, resps)
  else if want < r.offset_within_entry then some (false, r, metas, ctr, resps)
  else if want = r.offset_within_entry then some (true, r, metas, ctr, resps)
  else
    let a := acquire_side_buffer metas
    if a.1 ≥ metas.length then some (false, r, a.2, ctr, resps)
    else advance_offset_loop want a.1 resps r a.2 ctr

/-- The list of dst_len values advance_offset requests while walking a gap
of `gap` bytes: the non-multiple remainder first, then full side buffers. -/
def chunkSizes (gap : Int) : List Int :=
  if gap ≤ 0 then []
  else advance_chunk gap :: chunkSizes (gap - advance_chunk gap)
termination_by gap.toNat
decreasing_by
  simp only [advance_chunk, SIDE_BUFFER_SIZE] at *
  split_ifs <;> omega

/-- std::pair lexicographic < on (int64, int64). -/
def pair_lt (a b : Int × Int) : Bool :=
  decide (a.1 < b.1) || (decide (a.1 = b.1) && decide (a.2 < b.2))

/-- std::pair lexicographic <= on (int64, int64). -/
def pair_le (a b : Int × Int) : Bool :=
  decide (a.1 < b.1) || (decide (a.1 = b.1) && decide (a.2 ≤ b.2))

/-! ######################################################################
    ## Theorems
    ###################################################################### -/

theorem cons_isPrefixOf_head {a b : Char} {l m : List Char}
    (h : (a :: l).isPrefixOf (b :: m) = true) : a = b := by
  simp [List.isPrefixOf] at h
  exact h.1

theorem cons_isPrefixOf_ex {a : Char} {l e : List Char}
    (h : (a :: l).isPrefixOf e = true) : ∃ t, e = a :: t := by
  cases e with
  | nil => simp [List.isPrefixOf] at h
  | cons b t =>
    have hb : a = b := cons_isPrefixOf_head h
    exact ⟨t, by rw [hb]⟩

theorem prefix_excl {a b : Char} {l m e : List Char} (hab : a ≠ b)
    (h : (a :: l).isPrefixOf e = true) : (b :: m).isPrefixOf e = false := by
  obtain ⟨t, rfl⟩ := cons_isPrefixOf_ex h
  simp [List.isPrefixOf]
  intro hba
  exact absurd hba.symm hab

/-- C6: the passphrase classifier maps a libarchive error-message string to
exactly one exit code by prefix: "Incorrect passphrase" yields 21, a
"Passphrase required" yields 20, any of the eight listed
unsupported-encryption messages yields 22, and anything else yields 32. -/
theorem determine_passphrase_exit_code_spec (e : List Char) :
    (msg_incorrect_passphrase.isPrefixOf e = true →
      determine_passphrase_exit_code e = EXIT_CODE_PASSPHRASE_INCORRECT) ∧
    (msg_passphrase_required.isPrefixOf e = true →
      determine_passphrase_exit_code e = EXIT_CODE_PASSPHRASE_REQUIRED) ∧
    (∀ p ∈ not_supported_messages, p.isPrefixOf e = true →
      determine_passphrase_exit_code e = EXIT_CODE_PASSPHRASE_NOT_SUPPORTED) ∧
    (msg_incorrect_passphrase.isPrefixOf e = false →
     msg_passphrase_required.isPrefixOf e = false →
     (∀ p ∈ not_supported_messages, p.isPrefixOf e = false) →
      determine_passphrase_exit_code e = EXIT_CODE_INVALID_ARCHIVE_CONTENTS) := by
  refine ⟨?_, ?_, ?_, ?_⟩
  · intro h
    simp [determine_passphrase_exit_code, h]
  · intro h
    rw [show msg_passphrase_required = 'P' :: "assphrase required".toList from by decide] at h
    have hinc : msg_incorrect_passphrase.isPrefixOf e = false := by
      rw [show msg_incorrect_passphrase = 'I' :: "ncorrect passphrase".toList from by decide]
      exact prefix_excl (by decide) h
    rw [show ('P' :: "assphrase required".toList) = msg_passphrase_required from by decide] at h
    simp [determine_passphrase_exit_code, hinc, h]
  · intro p hp h
    have hmem := hp
    fin_cases hp <;>
      [ (rw [show ("Crypto codec not supported".toList : List Char) = 'C' :: "rypto codec not supported".toList from by decide] at h);
        (rw [show ("Decryption is unsupported".toList : List Char) = 'D' :: "ecryption is unsupported".toList from by decide] at h);
        (rw [show ("Encrypted file is unsupported".toList : List Char) = 'E' :: "ncrypted file is unsupported".toList from by decide] at h);
        (rw [show ("Encryption is not supported".toList : List Char) = 'E' :: "ncryption is not supported".toList from by decide] at h);
        (rw [show ("RAR encryption support unavailable".toList : List Char) = 'R' :: "AR encryption support unavailable".toList from by decide] at h);
        (rw [show ("The archive header is encrypted, but currently not supported".toList : List Char) = 'T' :: "he archive header is encrypted, but currently not supported".toList from by decide] at h);
        (rw [show ("The file content is encrypted, but currently not supported".toList : List Char) = 'T' :: "he file content is encrypted, but currently not supported".toList from by decide] at h);
        (rw [show ("Unsupported encryption format".toList : List Char) = 'U' :: "nsupported encryption format".toList from by decide] at h) ] <;>
    · have hinc : msg_incorrect_passphrase.isPrefixOf e = false := by
        rw [show msg_incorrect_passphrase = 'I' :: "ncorrect passphrase".toList from by decide]
        exact prefix_excl (by decide) h
      have hreq : msg_passphrase_required.isPrefixOf e = false := by
        rw [show msg_passphrase_required = 'P' :: "assphrase required".toList from by decide]
        exact prefix_excl (by decide) h
      have hany : not_supported_messages.any (fun p => p.isPrefixOf e) = true := by
        refine List.any_eq_true.mpr ⟨_, hmem, ?_⟩
        simpa using h
      simp [determine_passphrase_exit_code, hinc, hreq, hany]
  · intro h1 h2 h3
    have hany : not_supported_messages.any (fun p => p.isPrefixOf e) = false := by
      simp only [List.any_eq_false]
      intro p hp
      simp [h3 p hp]
    simp [determine_passphrase_exit_code, h1, h2, hany]

/-- C6 witness: the classifier evaluated on one concrete message of each
class. -/
theorem determine_passphrase_exit_code_spec_witness :
    determine_passphrase_exit_code "Incorrect passphrase?".toList =
      EXIT_CODE_PASSPHRASE_INCORRECT ∧
    determine_passphrase_exit_code "Passphrase required for this entry".toList =
      EXIT_CODE_PASSPHRASE_REQUIRED ∧
    determine_passphrase_exit_code "Unsupported encryption format".toList =
      EXIT_CODE_PASSPHRASE_NOT_SUPPORTED ∧
    determine_passphrase_exit_code "Truncated input file".toList =
      EXIT_CODE_INVALID_ARCHIVE_CONTENTS :=
  ⟨(determine_passphrase_exit_code_spec _).1 (by decide),
   (determine_passphrase_exit_code_spec _).2.1 (by decide),
   (determine_passphrase_exit_code_spec _).2.2.1
     ("Unsupported encryption format".toList) (by decide) (by decide),
   (determine_passphrase_exit_code_spec _).2.2.2 (by decide) (by decide) (by decide)⟩

/-! ## C5: pathname validation and normalization -/

theorem scan_iff (cs : List Char) : ∀ frag,
    valid_fragments_scan true frag cs = true ↔
      ∀ f ∈ componentsAux frag cs, fragment_invalid f = false := by
  induction cs with
  | nil =>
    intro frag
    simp [valid_fragments_scan, componentsAux]
  | cons c rest ih =>
    intro frag
    by_cases hc : c = '/'
    · subst hc
      by_cases hf : fragment_invalid frag = true
      · simp [valid_fragments_scan, componentsAux, hf]
      · simp only [Bool.not_eq_true] at hf
        simp [valid_fragments_scan, componentsAux, hf, ih]
    · simp [valid_fragments_scan, componentsAux, hc, ih]

theorem valid_pathname_iff (p : List Char) :
    valid_pathname p true = true ↔
      ∀ f ∈ componentsOf (strip_lead p), fragment_invalid f = false := by
  by_cases h1 : lead_dotslash p
  · rw [valid_pathname, if_pos h1, strip_lead, if_pos h1]
    simp [componentsOf, scan_iff]
  · by_cases h2 : lead_slash p
    · rw [valid_pathname, if_neg h1, if_pos h2, strip_lead, if_neg h1, if_pos h2]
      simp [componentsOf, scan_iff]
    · rw [valid_pathname, if_neg h1, if_neg h2, strip_lead, if_neg h1, if_neg h2]
      simp [componentsOf, scan_iff]

theorem tail_nil_second_none {s : List Char} (h : s.tail = []) : s[1]? = none := by
  cases s with
  | nil => simp
  | cons a t => simp at h; simp [h]

theorem normalize_reject_iff (s : List Char) :
    normalize_pathname s = [] ↔
      ∃ f ∈ componentsOf (strip_lead s), fragment_invalid f = true := by
  by_cases hv : valid_pathname s true = true
  · have hall := (valid_pathname_iff s).mp hv
    constructor
    · intro h
      exfalso
      rw [normalize_pathname, if_pos hv] at h
      by_cases h1 : lead_dotslash s
      · rw [if_pos h1] at h
        exact absurd (tail_nil_second_none h) (by simp [h1.2])
      · by_cases h2 : lead_slash s
        · rw [if_neg h1, if_pos h2] at h
          subst h
          simp [lead_slash] at h2
        · rw [if_neg h1, if_neg h2] at h
          exact List.cons_ne_nil _ _ h
    · intro ⟨f, hf, hbad⟩
      exact absurd (hall f hf) (by simp [hbad])
  · constructor
    · intro _
      by_contra hno
      push_neg at hno
      refine hv ((valid_pathname_iff s).mpr ?_)
      intro f hf
      simpa using hno f hf
    · intro _
      rw [normalize_pathname, if_neg hv]

theorem scan_head {t : List Char} (h : valid_fragments_scan true [] t = true) :
    t ≠ [] ∧ t[0]? ≠ some '/' := by
  cases t with
  | nil => simp [valid_fragments_scan, fragment_invalid] at h
  | cons c rest =>
    refine ⟨by simp, ?_⟩
    by_cases hc : c = '/'
    · subst hc
      simp [valid_fragments_scan, fragment_invalid] at h
    · simp [hc]

theorem dotslash_shape {s : List Char} (h : lead_dotslash s) :
    ∃ t, s = '.' :: '/' :: t := by
  obtain ⟨h0, h1⟩ := h
  rcases s with _ | ⟨a, _ | ⟨b, t⟩⟩
  · simp at h0
  · simp at h1
  · simp at h0 h1
    exact ⟨t, by rw [h0, h1]⟩

theorem slash_shape {s : List Char} (h : lead_slash s) :
    ∃ t, s = '/' :: t := by
  rcases s with _ | ⟨a, t⟩
  · simp [lead_slash] at h
  · simp [lead_slash] at h
    exact ⟨t, by rw [h]⟩

theorem normalize_accept_shape (s : List Char) (h : normalize_pathname s ≠ []) :
    ∃ t, normalize_pathname s = '/' :: t ∧ t ≠ [] ∧ t[0]? ≠ some '/' := by
  have hv : valid_pathname s true = true := by
    by_contra hv
    exact h (by rw [normalize_pathname, if_neg hv])
  by_cases h1 : lead_dotslash s
  · obtain ⟨t, rfl⟩ := dotslash_shape h1
    rw [normalize_pathname, if_pos hv, if_pos h1]
    rw [valid_pathname, if_pos h1] at hv
    simp only [List.tail_cons, Bool.true_and] at hv ⊢
    exact ⟨t, rfl, scan_head hv⟩
  · by_cases h2 : lead_slash s
    · obtain ⟨t, rfl⟩ := slash_shape h2
      rw [normalize_pathname, if_pos hv, if_neg h1, if_pos h2]
      rw [valid_pathname, if_neg h1, if_pos h2] at hv
      simp only [List.tail_cons, Bool.true_and] at hv
      exact ⟨t, rfl, scan_head hv⟩
    · rw [normalize_pathname, if_pos hv, if_neg h1, if_neg h2]
      rw [valid_pathname, if_neg h1, if_neg h2] at hv
      exact ⟨s, rfl, scan_head hv⟩

theorem insert_leaf_skip {st : TreeState} {raw symr : List Char}
    {idx size mtime : Int} {mode : Nat} (h : normalize_pathname raw = []) :
    insert_leaf st raw symr idx size mtime mode = (0, st) := by
  simp [insert_leaf, h]

/-- C5: an archive entry pathname that is empty or has a `.`, `..` or empty
component (after tolerating a single leading "./" or "/") is rejected by
normalize_pathname, and such an entry is skipped by insert_leaf without
error and without touching the tree; every accepted pathname is returned
starting with exactly one '/'.  In particular `../evil` creates no node. -/
theorem normalize_pathname_spec :
    (∀ s : List Char, normalize_pathname s = [] ↔
        ∃ f ∈ componentsOf (strip_lead s), fragment_invalid f = true) ∧
    (∀ s : List Char, normalize_pathname s ≠ [] →
        ∃ t, normalize_pathname s = '/' :: t ∧ t ≠ [] ∧ t[0]? ≠ some '/') ∧
    (∀ (st : TreeState) (raw symr : List Char) (idx size mtime : Int) (mode : Nat),
        normalize_pathname raw = [] →
        insert_leaf st raw symr idx size mtime mode = (0, st)) ∧
    (normalize_pathname "../evil".toList = [] ∧
      (buildTree [⟨"../evil".toList, [], 100, 7, 0o100644⟩]).nodes_by_name =
        initial_tree.nodes_by_name) :=
  ⟨normalize_reject_iff,
   normalize_accept_shape,
   fun _ _ _ _ _ _ _ h => insert_leaf_skip h,
   by decide⟩

/-- C5 witness: concrete rejected and accepted pathnames. -/
theorem normalize_pathname_spec_witness :
    normalize_pathname "a//b".toList = [] ∧
    (∃ t, normalize_pathname "./ok/x".toList = '/' :: t ∧ t ≠ [] ∧ t[0]? ≠ some '/') ∧
    insert_leaf initial_tree "..".toList [] 0 0 0 0o100644 = (0, initial_tree) :=
  ⟨(normalize_pathname_spec.1 _).mpr ⟨[], by decide, by decide⟩,
   normalize_pathname_spec.2.1 _ (by decide),
   normalize_pathname_spec.2.2.1 _ _ _ 0 0 0 0o100644 (by decide)⟩

/-! ## C2 lemmas -/

theorem advance_chunk_pos {d : Int} (h : 0 < d) : 0 < advance_chunk d := by
  simp only [advance_chunk, SIDE_BUFFER_SIZE]
  split_ifs <;> omega

theorem advance_chunk_le {d : Int} : advance_chunk d ≤ d := by
  simp only [advance_chunk, SIDE_BUFFER_SIZE]
  split_ifs <;> omega

theorem advance_chunk_of_le {d : Int} (h : d ≤ SIDE_BUFFER_SIZE) :
    advance_chunk d = d := by
  simp only [SIDE_BUFFER_SIZE] at h
  simp only [advance_chunk, SIDE_BUFFER_SIZE]
  split_ifs <;> omega

theorem advance_chunk_gap_ge {d : Int} (h : SIDE_BUFFER_SIZE < d) :
    SIDE_BUFFER_SIZE ≤ d - advance_chunk d := by
  simp only [advance_chunk, SIDE_BUFFER_SIZE] at *
  split_ifs <;> omega

theorem advance_offset_loop_done {want : Int} {sb : Nat} {resps : List Int}
    {r : RState} {metas : List SBMeta} {ctr : Nat}
    (h : ¬ want > r.offset_within_entry) :
    advance_offset_loop want sb resps r metas ctr =
      some (true, r, metas, ctr, resps) := by
  rw [advance_offset_loop.eq_def]
  simp [h]

theorem advance_offset_loop_step {want : Int} {sb : Nat} {rest : List Int}
    {r : RState} {metas : List SBMeta} {ctr : Nat}
    (hlt : r.offset_within_entry < want) :
    advance_offset_loop want sb
        (advance_chunk (want - r.offset_within_entry) :: rest) r metas ctr =
      advance_offset_loop want sb rest
        { r with offset_within_entry :=
            r.offset_within_entry + advance_chunk (want - r.offset_within_entry) }
        (metas.set sb ⟨r.index_within_archive, r.offset_within_entry,
                       advance_chunk (want - r.offset_within_entry), ctr + 1⟩)
        (ctr + 1) := by
  have hpos : 0 < advance_chunk (want - r.offset_within_entry) :=
    advance_chunk_pos (by omega)
  rw [advance_offset_loop.eq_def]
  simp only [gt_iff_lt, hlt, if_true, reader_read,
    Int.toNat_of_nonneg hpos.le]
  have h1 : ¬ advance_chunk (want - r.offset_within_entry) < 0 := by omega
  simp [h1]

theorem advance_offset_loop_err {want : Int} {sb : Nat} {neg : Int}
    {rest : List Int} {r : RState} {metas : List SBMeta} {ctr : Nat}
    (hlt : r.offset_within_entry < want) (hneg : neg < 0) :
    advance_offset_loop want sb (neg :: rest) r metas ctr =
      some (false, r, metas.set sb failed_meta, ctr, rest) := by
  rw [advance_offset_loop.eq_def]
  simp only [gt_iff_lt, hlt, if_true, reader_read, hneg]
  norm_num [errno_io]

theorem advance_offset_loop_ok : ∀ (fuel : Nat) (gap want : Int) (r : RState)
    (metas : List SBMeta) (ctr : Nat) (sb : Nat),
    gap.toNat ≤ fuel → 0 < gap → sb < metas.length →
    r.offset_within_entry = want - gap →
    advance_offset_loop want sb (chunkSizes gap) r metas ctr =
      some (true, { r with offset_within_entry := want },
        metas.set sb ⟨r.index_within_archive, want - min gap SIDE_BUFFER_SIZE,
                      min gap SIDE_BUFFER_SIZE, ctr + (chunkSizes gap).length⟩,
        ctr + (chunkSizes gap).length, []) := by
  intro fuel
  induction fuel with
  | zero =>
    intro gap want r metas ctr sb hfuel hgap
    omega
  | succ fuel ih =>
    intro gap want r metas ctr sb hfuel hgap hsb hoff
    have hlt : r.offset_within_entry < want := by omega
    have hchunk : advance_chunk (want - r.offset_within_entry) =
        advance_chunk gap := by rw [hoff]; ring_nf
    rw [chunkSizes.eq_def]
    simp only [not_le.mpr hgap, if_false]
    rw [← hchunk, advance_offset_loop_step hlt, hchunk]
    by_cases hle : gap ≤ SIDE_BUFFER_SIZE
    · have hc : advance_chunk gap = gap := advance_chunk_of_le hle
      rw [hc]
      have hdone : chunkSizes (gap - gap) = [] := by
        rw [chunkSizes.eq_def]
        simp
      rw [hdone]
      rw [advance_offset_loop_done (by simp; omega)]
      have hmin : min gap SIDE_BUFFER_SIZE = gap := by omega
      have h1 : r.offset_within_entry + gap = want := by omega
      have h2 : want - gap = r.offset_within_entry := by omega
      simp [hmin, h1, h2]
    · push_neg at hle
      have hc_pos : 0 < advance_chunk gap := advance_chunk_pos hgap
      have hc_le : advance_chunk gap ≤ gap := advance_chunk_le
      have hgap2 : SIDE_BUFFER_SIZE ≤ gap - advance_chunk gap :=
        advance_chunk_gap_ge hle
      have hL : (0 : Int) < SIDE_BUFFER_SIZE := by norm_num [SIDE_BUFFER_SIZE]
      have hrec := ih (gap - advance_chunk gap) want
        { r with offset_within_entry :=
            r.offset_within_entry + advance_chunk gap }
        (metas.set sb ⟨r.index_within_archive, r.offset_within_entry,
                       advance_chunk gap, ctr + 1⟩)
        (ctr + 1) sb (by omega) (by omega) (by simp [List.length_set]; omega)
        (by simp; omega)
      rw [hrec]
      rw [List.set_set]
      have hmin1 : min (gap - advance_chunk gap) SIDE_BUFFER_SIZE =
          SIDE_BUFFER_SIZE := by omega
      have hmin2 : min gap SIDE_BUFFER_SIZE = SIDE_BUFFER_SIZE := by omega
      have harith : ctr + 1 + (chunkSizes (gap - advance_chunk gap)).length =
          ctr + ((chunkSizes (gap - advance_chunk gap)).length + 1) := by omega
      simp only [List.length_cons]
      simp [hmin1, hmin2, harith]

theorem chunkSizes_replicate : ∀ k : Nat,
    chunkSizes ((k : Int) * SIDE_BUFFER_SIZE) = List.replicate k SIDE_BUFFER_SIZE := by
  intro k
  induction k with
  | zero =>
    rw [chunkSizes.eq_def]
    simp
  | succ k ih =>
    have hL : (0 : Int) < SIDE_BUFFER_SIZE := by norm_num [SIDE_BUFFER_SIZE]
    have hgap : (0 : Int) < ((k : Int) + 1) * SIDE_BUFFER_SIZE := by positivity
    rw [chunkSizes.eq_def]
    push_cast
    simp only [not_le.mpr (by linarith : (0:Int) < ((k:Int)+1) * SIDE_BUFFER_SIZE), if_false]
    by_cases hk : k = 0
    · subst hk
      simp only [Nat.cast_zero, zero_add, one_mul]
      rw [advance_chunk_of_le le_rfl]
      rw [sub_self]
      rw [chunkSizes.eq_def]
      simp
    · have hk1 : 1 ≤ (k : Int) := by exact_mod_cast Nat.one_le_iff_ne_zero.mpr hk
      have hgt : SIDE_BUFFER_SIZE < ((k : Int) + 1) * SIDE_BUFFER_SIZE := by nlinarith
      have hmod : (((k : Int) + 1) * SIDE_BUFFER_SIZE) % SIDE_BUFFER_SIZE = 0 :=
        Int.mul_emod_left _ _
      have hchunk : advance_chunk (((k : Int) + 1) * SIDE_BUFFER_SIZE) =
          SIDE_BUFFER_SIZE := by
        unfold advance_chunk
        rw [if_pos hgt, if_pos hmod]
      rw [hchunk]
      have hsub : ((k : Int) + 1) * SIDE_BUFFER_SIZE - SIDE_BUFFER_SIZE =
          (k : Int) * SIDE_BUFFER_SIZE := by ring
      rw [hsub, ih]
      rfl

theorem chunkSizes_head_gt {gap : Int} (h : SIDE_BUFFER_SIZE < gap) :
    ∃ k : Nat, 1 ≤ k ∧
      chunkSizes gap =
        (if gap % SIDE_BUFFER_SIZE = 0 then SIDE_BUFFER_SIZE
         else gap % SIDE_BUFFER_SIZE) :: List.replicate k SIDE_BUFFER_SIZE := by
  have hL : (0 : Int) < SIDE_BUFFER_SIZE := by norm_num [SIDE_BUFFER_SIZE]
  have hgap : 0 < gap := by omega
  have hchunk : advance_chunk gap =
      (if gap % SIDE_BUFFER_SIZE = 0 then SIDE_BUFFER_SIZE
       else gap % SIDE_BUFFER_SIZE) := by
    unfold advance_chunk
    rw [if_pos h]
  have hge : SIDE_BUFFER_SIZE ≤ gap - advance_chunk gap := advance_chunk_gap_ge h
  have hdvd : SIDE_BUFFER_SIZE ∣ (gap - advance_chunk gap) := by
    rw [hchunk]
    by_cases hm : gap % SIDE_BUFFER_SIZE = 0
    · rw [if_pos hm]
      have : SIDE_BUFFER_SIZE ∣ gap := Int.dvd_of_emod_eq_zero hm
      exact dvd_sub this dvd_rfl
    · rw [if_neg hm]
      have : gap - gap % SIDE_BUFFER_SIZE =
          SIDE_BUFFER_SIZE * (gap / SIDE_BUFFER_SIZE) := by
        rw [Int.emod_def]
        ring
      rw [this]
      exact Dvd.intro _ rfl
  obtain ⟨q, hq⟩ := hdvd
  have hq1 : 1 ≤ q := by nlinarith [hq ▸ hge]
  refine ⟨q.toNat, by omega, ?_⟩
  rw [chunkSizes.eq_def]
  rw [if_neg (by omega), hchunk]
  congr 1
  rw [← hchunk, hq]
  have : SIDE_BUFFER_SIZE * q = (q.toNat : Int) * SIDE_BUFFER_SIZE := by
    rw [Int.toNat_of_nonneg (by omega)]
    ring
  rw [this, chunkSizes_replicate]

theorem oldest_loop_bound : ∀ (l : List SBMeta) (i : Nat) (best : Nat × Nat),
    (oldest_loop l i best).1 = best.1 ∨
      (i ≤ (oldest_loop l i best).1 ∧ (oldest_loop l i best).1 < i + l.length) := by
  intro l
  induction l with
  | nil =>
    intro i best
    left
    rfl
  | cons m rest ih =>
    intro i best
    rw [oldest_loop]
    by_cases hc : best.2 > m.lru_priority
    · rw [if_pos hc]
      rcases ih (i + 1) (i, m.lru_priority) with h | h
      · right
        rw [h]
        simp
      · right
        simp at h ⊢
        omega
    · rw [if_neg hc]
      rcases ih (i + 1) best with h | h
      · left
        exact h
      · right
        simp at h ⊢
        omega

theorem acquire_side_buffer_lt {metas : List SBMeta} (h : metas ≠ []) :
    (acquire_side_buffer metas).1 < metas.length ∧
    (acquire_side_buffer metas).2.length = metas.length := by
  match metas, h with
  | m0 :: rest, _ =>
    simp only [acquire_side_buffer, List.tail_cons, List.length_cons,
      List.length_set]
    refine ⟨?_, trivial⟩
    rcases oldest_loop_bound rest 1 (0, m0.lru_priority) with h1 | h1
    · simp [h1]
    · omega

theorem reader_advance_offset_spec :
    (∀ (want : Int) (resps : List Int) (r : RState) (metas : List SBMeta) (ctr : Nat),
      r.hasArchive = true → r.hasEntry = true →
      want < r.offset_within_entry →
      advance_offset want resps r metas ctr = some (false, r, metas, ctr, resps)) ∧
    (∀ (want : Int) (resps : List Int) (r : RState) (metas : List SBMeta) (ctr : Nat),
      r.hasArchive = true → r.hasEntry = true →
      want = r.offset_within_entry →
      advance_offset want resps r metas ctr = some (true, r, metas, ctr, resps)) ∧
    (∀ (want : Int) (r : RState) (metas : List SBMeta) (ctr : Nat),
      r.hasArchive = true → r.hasEntry = true →
      r.offset_within_entry < want → metas ≠ [] →
      advance_offset want (chunkSizes (want - r.offset_within_entry)) r metas ctr =
        some (true, { r with offset_within_entry := want },
          (acquire_side_buffer metas).2.set (acquire_side_buffer metas).1
            ⟨r.index_within_archive,
             want - min (want - r.offset_within_entry) SIDE_BUFFER_SIZE,
             min (want - r.offset_within_entry) SIDE_BUFFER_SIZE,
             ctr + (chunkSizes (want - r.offset_within_entry)).length⟩,
          ctr + (chunkSizes (want - r.offset_within_entry)).length, [])) ∧
    (∀ gap : Int, SIDE_BUFFER_SIZE < gap →
      ∃ k : Nat, 1 ≤ k ∧
        chunkSizes gap =
          (if gap % SIDE_BUFFER_SIZE = 0 then SIDE_BUFFER_SIZE
           else gap % SIDE_BUFFER_SIZE) :: List.replicate k SIDE_BUFFER_SIZE) ∧
    (∀ (want neg : Int) (rest : List Int) (r : RState) (metas : List SBMeta) (ctr : Nat),
      r.hasArchive = true → r.hasEntry = true →
      r.offset_within_entry < want → metas ≠ [] → neg < 0 →
      advance_offset want (neg :: rest) r metas ctr =
        some (false, r,
          (acquire_side_buffer metas).2.set (acquire_side_buffer metas).1 failed_meta,
          ctr, rest)) := by
  refine ⟨?_, ?_, ?_, ?_, ?_⟩
  · intro want resps r metas ctr ha he hlt
    rw [advance_offset]
    simp [ha, he, hlt]
  · intro want resps r metas ctr ha he heq
    rw [advance_offset]
    simp [ha, he, heq]
  · intro want r metas ctr ha he hlt hne
    obtain ⟨hb1, hb2⟩ := acquire_side_buffer_lt hne
    simp only [advance_offset]
    rw [if_neg (show ¬ (r.hasArchive = false ∨ r.hasEntry = false) by simp [ha, he])]
    rw [if_neg (show ¬ want < r.offset_within_entry by omega)]
    rw [if_neg (show ¬ want = r.offset_within_entry by omega)]
    rw [if_neg (show ¬ (acquire_side_buffer metas).1 ≥ metas.length by omega)]
    exact advance_offset_loop_ok (want - r.offset_within_entry).toNat
      (want - r.offset_within_entry) want r (acquire_side_buffer metas).2 ctr
      (acquire_side_buffer metas).1 le_rfl (by omega) (by omega) (by omega)
  · intro gap h
    exact chunkSizes_head_gt h
  · intro want neg rest r metas ctr ha he hlt hne hneg
    obtain ⟨hb1, hb2⟩ := acquire_side_buffer_lt hne
    simp only [advance_offset]
    rw [if_neg (show ¬ (r.hasArchive = false ∨ r.hasEntry = false) by simp [ha, he])]
    rw [if_neg (show ¬ want < r.offset_within_entry by omega)]
    rw [if_neg (show ¬ want = r.offset_within_entry by omega)]
    rw [if_neg (show ¬ (acquire_side_buffer metas).1 ≥ metas.length by omega)]
    exact advance_offset_loop_err hlt hneg

theorem reader_advance_offset_spec_witness :
    (advance_offset 5 [7] ⟨true, true, 2, 10⟩ [⟨-1, -1, -1, 0⟩] 0 =
      some (false, ⟨true, true, 2, 10⟩, [⟨-1, -1, -1, 0⟩], 0, [7])) ∧
    (advance_offset 10 [7] ⟨true, true, 2, 10⟩ [⟨-1, -1, -1, 0⟩] 0 =
      some (true, ⟨true, true, 2, 10⟩, [⟨-1, -1, -1, 0⟩], 0, [7])) ∧
    (advance_offset 30 (chunkSizes 20) ⟨true, true, 2, 10⟩ [⟨-1, -1, -1, 0⟩] 0 =
      some (true, ⟨true, true, 2, 30⟩, [⟨2, 10, 20, 1⟩], 1, [])) ∧
    (∃ k : Nat, 1 ≤ k ∧
      chunkSizes 266240 = 4096 :: List.replicate k SIDE_BUFFER_SIZE) ∧
    (advance_offset 30 [-3, 9] ⟨true, true, 2, 10⟩ [⟨-1, -1, -1, 0⟩] 0 =
      some (false, ⟨true, true, 2, 10⟩, [failed_meta], 0, [9])) := by
  refine ⟨?_, ?_, ?_, ?_, ?_⟩
  · exact reader_advance_offset_spec.1 5 [7] ⟨true, true, 2, 10⟩ _ 0 rfl rfl
      (by norm_num)
  · exact reader_advance_offset_spec.2.1 10 [7] ⟨true, true, 2, 10⟩ _ 0 rfl rfl
      (by norm_num)
  · have h20 : chunkSizes 20 = [20] := by
      rw [chunkSizes.eq_def]
      norm_num [advance_chunk, SIDE_BUFFER_SIZE]
      rw [chunkSizes.eq_def]
      norm_num
    have h := reader_advance_offset_spec.2.2.1 30 ⟨true, true, 2, 10⟩
      [⟨-1, -1, -1, 0⟩] 0 rfl rfl (by norm_num) (by simp)
    simp only [show (30 : Int) - (⟨true, true, 2, 10⟩ : RState).offset_within_entry = 20
      from by norm_num, h20] at h
    rw [h20]
    simpa [acquire_side_buffer, oldest_loop, acquired_meta, SIDE_BUFFER_SIZE] using h
  · have h := reader_advance_offset_spec.2.2.2.1 266240 (by norm_num [SIDE_BUFFER_SIZE])
    obtain ⟨k, hk, heq⟩ := h
    refine ⟨k, hk, ?_⟩
    rw [heq]
    norm_num [SIDE_BUFFER_SIZE]
  · have h := reader_advance_offset_spec.2.2.2.2 30 (-3) [9] ⟨true, true, 2, 10⟩
      [⟨-1, -1, -1, 0⟩] 0 rfl rfl (by norm_num) (by simp) (by norm_num)
    simpa [acquire_side_buffer, oldest_loop, acquired_meta] using h

/-! ## C8 lemmas -/

theorem advance_index_loop_mono : ∀ (fuel : Nat) (ne : Nat) (want : Int)
    (r r' : RState), advance_index_loop ne want fuel r = some r' →
    r' = r ∨ (r.index_within_archive < r'.index_within_archive ∧
      r'.offset_within_entry = 0 ∧ r'.hasArchive = r.hasArchive ∧
      r'.hasEntry = true) := by
  intro fuel
  induction fuel with
  | zero =>
    intro ne want r r' h
    rw [advance_index_loop] at h
    left
    exact (Option.some_injective _ h).symm
  | succ fuel ih =>
    intro ne want r r' h
    rw [advance_index_loop] at h
    by_cases hlt : r.index_within_archive < want
    · rw [if_pos hlt] at h
      by_cases heof : (ne : Int) ≤ r.index_within_archive + 1
      · rw [if_pos heof] at h
        exact absurd h (by simp)
      · rw [if_neg heof] at h
        rcases ih ne want _ r' h with h1 | h1
        · right
          subst h1
          exact ⟨by simp, rfl, rfl, rfl⟩
        · right
          simp only at h1
          exact ⟨by omega, h1.2.1, h1.2.2.1, h1.2.2.2⟩
    · rw [if_neg hlt] at h
      left
      exact (Option.some_injective _ h).symm

theorem advance_offset_loop_mono : ∀ (resps : List Int) (want : Int) (sb : Nat)
    (r : RState) (metas : List SBMeta) (ctr : Nat)
    (out : Bool × RState × List SBMeta × Nat × List Int),
    advance_offset_loop want sb resps r metas ctr = some out →
    out.2.1.index_within_archive = r.index_within_archive ∧
    r.offset_within_entry ≤ out.2.1.offset_within_entry ∧
    out.2.1.hasArchive = r.hasArchive ∧ out.2.1.hasEntry = r.hasEntry := by
  intro resps
  induction resps with
  | nil =>
    intro want sb r metas ctr out h
    rw [advance_offset_loop.eq_def] at h
    by_cases hgt : want > r.offset_within_entry <;>
      simp only [hgt, if_true, if_false, Option.some_inj] at h <;>
      rw [← h] <;> simp
  | cons resp rest ih =>
    intro want sb r metas ctr out h
    rw [advance_offset_loop.eq_def] at h
    by_cases hgt : want > r.offset_within_entry
    · simp only [hgt, if_true] at h
      by_cases hneg : resp < 0
      · simp only [reader_read, hneg, if_true] at h
        rw [if_pos (by norm_num [errno_io])] at h
        simp only [Option.some_inj] at h
        rw [← h]
        simp
      · by_cases hbig : ((advance_chunk (want - r.offset_within_entry)).toNat : Int) < resp
        · simp only [reader_read, hneg, if_false, hbig, if_true] at h
          exact absurd h (by simp)
        · simp only [reader_read, hneg, if_false, hbig, Option.some_inj] at h
          have h2 := ih want sb _ _ _ out h
          simp only at h2
          refine ⟨h2.1, ?_, h2.2.2.1, h2.2.2.2⟩
          have : r.offset_within_entry ≤ r.offset_within_entry + resp := by omega
          omega
    · simp only [hgt, if_false, Option.some_inj] at h
      rw [← h]
      simp

/-- C8 claim theorem. -/
theorem reader_state_monotonic_spec :
    (∀ (ne : Nat) (r : RState) (want : Int) (r' : RState),
      advance_index ne r want = some r' →
        pair_le (r.index_within_archive, r.offset_within_entry)
          (r'.index_within_archive, r'.offset_within_entry) = true ∧
        r.index_within_archive ≤ r'.index_within_archive ∧
        (r.index_within_archive < r'.index_within_archive →
          r'.offset_within_entry = 0) ∧
        (r'.index_within_archive = r.index_within_archive → r' = r)) ∧
    (∀ (want : Int) (resps : List Int) (r : RState) (metas : List SBMeta)
        (ctr : Nat) (out : Bool × RState × List SBMeta × Nat × List Int),
      advance_offset want resps r metas ctr = some out →
        out.2.1.index_within_archive = r.index_within_archive ∧
        r.offset_within_entry ≤ out.2.1.offset_within_entry ∧
        pair_le (r.index_within_archive, r.offset_within_entry)
          (out.2.1.index_within_archive, out.2.1.offset_within_entry) = true) ∧
    (∀ (r : RState) (len : Nat) (resp n : Int) (r' : RState),
      reader_read r len resp = some (n, r') →
        r'.index_within_archive = r.index_within_archive ∧
        r.offset_within_entry ≤ r'.offset_within_entry ∧
        pair_le (r.index_within_archive, r.offset_within_entry)
          (r'.index_within_archive, r'.offset_within_entry) = true) := by
  refine ⟨?_, ?_, ?_⟩
  · intro ne r want r' h
    rw [advance_index] at h
    by_cases ha : r.hasArchive = false
    · rw [if_pos ha] at h
      exact absurd h (by simp)
    · rw [if_neg ha] at h
      rcases advance_index_loop_mono _ ne want r r' h with h1 | h1
      · subst h1
        exact ⟨by simp [pair_le], le_rfl, by omega, fun _ => rfl⟩
      · refine ⟨by simp [pair_le]; omega, by omega, fun _ => h1.2.1, fun he => ?_⟩
        omega
  · intro want resps r metas ctr out h
    rw [advance_offset] at h
    by_cases hdead : r.hasArchive = false ∨ r.hasEntry = false
    · rw [if_pos hdead] at h
      simp only [Option.some_inj] at h
      rw [← h]
      simp [pair_le]
    · rw [if_neg hdead] at h
      by_cases h1 : want < r.offset_within_entry
      · rw [if_pos h1] at h
        simp only [Option.some_inj] at h
        rw [← h]
        simp [pair_le]
      · rw [if_neg h1] at h
        by_cases h2 : want = r.offset_within_entry
        · rw [if_pos h2] at h
          simp only [Option.some_inj] at h
          rw [← h]
          simp [pair_le]
        · rw [if_neg h2] at h
          by_cases h3 : (acquire_side_buffer metas).1 ≥ metas.length
          · rw [if_pos h3] at h
            simp only [Option.some_inj] at h
            rw [← h]
            simp [pair_le]
          · rw [if_neg h3] at h
            have h4 := advance_offset_loop_mono _ want _ r _ ctr out h
            refine ⟨h4.1, h4.2.1, ?_⟩
            simp [pair_le]
            omega
  · intro r len resp n r' h
    rw [reader_read] at h
    by_cases hneg : resp < 0
    · rw [if_pos hneg] at h
      simp only [Option.some_inj, Prod.mk.injEq] at h
      rw [← h.2]
      exact ⟨rfl, le_rfl, by simp [pair_le]⟩
    · rw [if_neg hneg] at h
      by_cases hbig : (len : Int) < resp
      · rw [if_pos hbig] at h
        exact absurd h (by simp)
      · rw [if_neg hbig] at h
        simp only [Option.some_inj, Prod.mk.injEq] at h
        rw [← h.2]
        exact ⟨rfl, by simp; omega, by simp [pair_le]; omega⟩

theorem reader_state_monotonic_spec_witness :
    (pair_le (-1, 0) (2, 0) = true ∧ (-1 : Int) ≤ 2) ∧
    ((10 : Int) ≤ 12) ∧
    ((5 : Int) ≤ 5 + 7) := by
  have h1 := reader_state_monotonic_spec.1 5 fresh_reader 2 ⟨true, true, 2, 0⟩
    (by decide)
  have h2 := reader_state_monotonic_spec.2.1 12 [2] ⟨true, true, 2, 10⟩
    [⟨-1, -1, -1, 0⟩] 0 (true, ⟨true, true, 2, 12⟩, [⟨2, 10, 2, 1⟩], 1, [])
    (by decide)
  have h3 := reader_state_monotonic_spec.2.2 ⟨true, true, 2, 5⟩ 7 7 7
    ⟨true, true, 2, 5 + 7⟩ (by decide)
  exact ⟨⟨h1.1, h1.2.1⟩, h2.2.1, h3.2.1⟩

/-! ## C3 lemmas -/

theorem contains_length_nonneg {m : SBMeta} {idx off : Int} {len : Nat}
    (h : m.contains idx off len = true) : 0 ≤ m.length := by
  rw [SBMeta.contains] at h
  split_ifs at h with hg
  simp at h
  omega

theorem get_append_last {α : Type} (l : List α) (x : α)
    (h : l.length < (l ++ [x]).length) :
    (l ++ [x]).get ⟨l.length, h⟩ = x := by
  induction l with
  | nil => rfl
  | cons a t ih => exact ih (by simp)

theorem get_append_first {α : Type} : ∀ (l l2 : List α) (b : Nat)
    (hb : b < l.length) (h : b < (l ++ l2).length),
    (l ++ l2).get ⟨b, h⟩ = l.get ⟨b, hb⟩ := by
  intro l
  induction l with
  | nil =>
    intro l2 b hb
    simp at hb
  | cons a t ih =>
    intro l2 b hb h
    cases b with
    | zero => rfl
    | succ b => simpa using ih l2 b (by simpa using hb) (by simpa using h)

/-- Invariant of the best-buffer scan: either nothing seen so far contains
the request and best is the initial (-1, -1), or best points at a
containing buffer of maximal length among those seen. -/
def best_loop_inv (idx off : Int) (len : Nat) (done : List SBMeta)
    (best : Int × Int) : Prop :=
  (best = (-1, -1) ∧ ∀ m ∈ done, m.contains idx off len = false) ∨
  (∃ (b : Nat) (hb : b < done.length), best.1 = (b : Int) ∧
     (done.get ⟨b, hb⟩).contains idx off len = true ∧
     best.2 = (done.get ⟨b, hb⟩).length ∧
     ∀ m ∈ done, m.contains idx off len = true → m.length ≤ best.2)

theorem best_loop_step (idx off : Int) (len : Nat) :
    ∀ (l done : List SBMeta) (best : Int × Int),
    best_loop_inv idx off len done best →
    best_loop_inv idx off len (done ++ l)
      (best_side_buffer_loop idx off len l done.length best) := by
  intro l
  induction l with
  | nil =>
    intro done best hinv
    rw [best_side_buffer_loop]
    simpa using hinv
  | cons m rest ih =>
    intro done best hinv
    rw [best_side_buffer_loop]
    have hstep : best_loop_inv idx off len (done ++ [m])
        (if m.length > best.2 ∧ m.contains idx off len then
          ((done.length : Int), m.length) else best) := by
      by_cases hc : m.length > best.2 ∧ m.contains idx off len = true
      · rw [if_pos (by simpa using hc)]
        right
        refine ⟨done.length, by simp, by simp, ?_, ?_, ?_⟩
        · rw [get_append_last]
          exact hc.2
        · rw [get_append_last]
        · intro x hx hxc
          rcases List.mem_append.mp hx with hx | hx
          · rcases hinv with ⟨_, hall⟩ | ⟨b, hb, _, _, hlen, hmax⟩
            · exact absurd (hall x hx) (by simp [hxc])
            · have := hmax x hx hxc
              simp only
              omega
          · simp at hx
            subst hx
            simp
      · rw [if_neg (by simpa using hc)]
        rcases hinv with ⟨hbest, hall⟩ | ⟨b, hb, hb1, hb2, hlen, hmax⟩
        · left
          refine ⟨hbest, ?_⟩
          intro x hx
          rcases List.mem_append.mp hx with hx | hx
          · exact hall x hx
          · simp at hx
            subst hx
            by_contra hxc
            simp only [Bool.not_eq_false] at hxc
            have h0 : 0 ≤ x.length := contains_length_nonneg hxc
            rw [hbest] at hc
            simp at hc
            exact absurd (hc (by omega)) (by simp [hxc])
        · right
          refine ⟨b, by simp only [List.length_append, List.length_cons,
              List.length_nil]; omega, hb1, ?_, ?_, ?_⟩
          · rw [get_append_first _ _ _ hb]
            exact hb2
          · rw [get_append_first _ _ _ hb]
            exact hlen
          · intro x hx hxc
            rcases List.mem_append.mp hx with hx | hx
            · exact hmax x hx hxc
            · simp at hx
              subst hx
              by_contra hlt
              push_neg at hlt
              exact hc ⟨hlt, hxc⟩
    have := ih (done ++ [m]) _ hstep
    simpa using this

theorem best_loop_full (idx off : Int) (len : Nat) (metas : List SBMeta) :
    best_loop_inv idx off len metas
      (best_side_buffer_loop idx off len metas 0 (-1, -1)) := by
  have h := best_loop_step idx off len metas [] (-1, -1)
    (Or.inl ⟨rfl, by simp⟩)
  simpa using h

/-- C3 claim theorem. -/
theorem read_from_side_buffer_spec :
    (∀ (m : SBMeta) (idx off : Int) (len : Nat), 0 ≤ idx →
      (m.contains idx off len = true ↔
        (m.index_within_archive = idx ∧ m.offset_within_entry ≤ off ∧
         (len : Int) ≤ m.length - (off - m.offset_within_entry)))) ∧
    (∀ (m : SBMeta) (idx off : Int) (len : Nat),
      m.index_within_archive = -1 → m.contains idx off len = false) ∧
    (∀ (metas : List SBMeta) (data : Nat → Nat → Nat) (next : Nat)
        (idx : Int) (len : Nat) (off : Int),
      (∀ m ∈ metas, m.contains idx off len = false) →
      read_from_side_buffer metas data next idx len off = (none, metas, next)) ∧
    (∀ (metas : List SBMeta) (data : Nat → Nat → Nat) (next : Nat)
        (idx : Int) (len : Nat) (off : Int) (m0 : SBMeta),
      m0 ∈ metas → m0.contains idx off len = true →
      ∃ (b : Nat) (hb : b < metas.length),
        (metas.get ⟨b, hb⟩).contains idx off len = true ∧
        (∀ m ∈ metas, m.contains idx off len = true →
          m.length ≤ (metas.get ⟨b, hb⟩).length) ∧
        read_from_side_buffer metas data next idx len off =
          (some ((List.range len).map (fun j =>
              data b ((off - (metas.get ⟨b, hb⟩).offset_within_entry).toNat + j))),
           metas.set b { metas.get ⟨b, hb⟩ with lru_priority := next + 1 },
           next + 1)) := by
  refine ⟨?_, ?_, ?_, ?_⟩
  · intro m idx off len hidx
    rw [SBMeta.contains]
    split_ifs with hg
    · simp only [Bool.and_eq_true, decide_eq_true_eq]
      constructor
      · intro h
        exact ⟨hg.2.1, hg.2.2, by omega⟩
      · intro h
        exact ⟨by omega, by omega⟩
    · constructor
      · intro h
        simp at h
      · intro h
        exact absurd ⟨by omega, h.1, h.2.1⟩ hg
  · intro m idx off len h
    rw [SBMeta.contains]
    split_ifs with hg
    · omega
    · rfl
  · intro metas data next idx len off hall
    have hinv := best_loop_full idx off len metas
    rw [best_loop_inv] at hinv
    rcases hinv with ⟨hbest, _⟩ | ⟨b, hb, hb1, hb2, _, _⟩
    · rw [read_from_side_buffer]
      rw [if_neg (by rw [hbest]; norm_num)]
    · exact absurd (hall _ (List.get_mem metas b hb))
        (by simp only [List.get_eq_getElem] at hb2; simp [hb2])
  · intro metas data next idx len off m0 hm0 hc0
    have hinv := best_loop_full idx off len metas
    rw [best_loop_inv] at hinv
    rcases hinv with ⟨_, hall⟩ | ⟨b, hb, hb1, hb2, hlen, hmax⟩
    · exact absurd (hall m0 hm0) (by simp [hc0])
    · refine ⟨b, hb, hb2, fun m hm hmc => by
        have := hmax m hm hmc
        omega, ?_⟩
      rw [read_from_side_buffer]
      rw [if_pos (by rw [hb1]; positivity)]
      have htn : (best_side_buffer_loop idx off len metas 0 (-1, -1)).1.toNat = b := by
        rw [hb1]
        exact Int.toNat_natCast b
      rw [htn]
      simp only [List.getElem?_eq_getElem hb, List.get_eq_getElem]

/-- C3 witness. -/
theorem read_from_side_buffer_spec_witness :
    ((⟨2, 0, 50, 3⟩ : SBMeta).contains 2 10 5 = true ↔
      ((2 : Int) = 2 ∧ (0 : Int) ≤ 10 ∧ (5 : Int) ≤ 50 - (10 - 0))) ∧
    ((⟨-1, -1, -1, 0⟩ : SBMeta).contains 2 10 5 = false) ∧
    (read_from_side_buffer [⟨-1, -1, -1, 0⟩] (fun _ _ => 0) 9 2 5 10 =
      (none, [⟨-1, -1, -1, 0⟩], 9)) ∧
    (∃ (b : Nat) (hb : b < ([⟨2, 0, 50, 3⟩, ⟨-1, -1, -1, 0⟩] : List SBMeta).length),
      (([⟨2, 0, 50, 3⟩, ⟨-1, -1, -1, 0⟩] : List SBMeta).get ⟨b, hb⟩).contains 2 10 5 = true ∧
      (∀ m ∈ ([⟨2, 0, 50, 3⟩, ⟨-1, -1, -1, 0⟩] : List SBMeta),
        m.contains 2 10 5 = true →
        m.length ≤ (([⟨2, 0, 50, 3⟩, ⟨-1, -1, -1, 0⟩] : List SBMeta).get ⟨b, hb⟩).length) ∧
      read_from_side_buffer [⟨2, 0, 50, 3⟩, ⟨-1, -1, -1, 0⟩] (fun _ _ => 0) 9 2 5 10 =
        (some ((List.range 5).map (fun j => (fun _ _ => (0 : Nat)) b
            ((10 - (([⟨2, 0, 50, 3⟩, ⟨-1, -1, -1, 0⟩] : List SBMeta).get ⟨b, hb⟩).offset_within_entry).toNat + j))),
         ([⟨2, 0, 50, 3⟩, ⟨-1, -1, -1, 0⟩] : List SBMeta).set b
           { ([⟨2, 0, 50, 3⟩, ⟨-1, -1, -1, 0⟩] : List SBMeta).get ⟨b, hb⟩ with
             lru_priority := 9 + 1 },
         9 + 1)) := by
  refine ⟨?_, ?_, ?_, ?_⟩
  · exact read_from_side_buffer_spec.1 ⟨2, 0, 50, 3⟩ 2 10 5 (by norm_num)
  · exact read_from_side_buffer_spec.2.1 ⟨-1, -1, -1, 0⟩ 2 10 5 rfl
  · exact read_from_side_buffer_spec.2.2.1 _ _ 9 2 5 10 (by decide)
  · exact read_from_side_buffer_spec.2.2.2 _ _ 9 2 5 10 ⟨2, 0, 50, 3⟩
      (by simp) (by decide)

/-! ## Reader cache (main.cc lines 795-871): C1 definitions -/

/-- The (best_index_within_archive, best_offset_within_entry) tracked by the
acquire_reader scan: (-1, -1) before any candidate is selected. -/
def best_pos : Option (Nat × RState) → Int × Int
  | none => (-1, -1)
  | some (_, br) => (br.index_within_archive, br.offset_within_entry)

/-- The candidate scan of acquire_reader over g_saved_readers: a cached
Reader is selected when its (index, offset) is strictly greater than the
best so far and at most (want, 0), both lexicographically. -/
def best_reader_loop (want : Int) : List (Option RState × Nat) → Nat →
    Option (Nat × RState) → Option (Nat × RState)
  | [], _, best => best
  | sr :: rest, i, best =>
    best_reader_loop want rest (i + 1)
      (match sr.1 with
       | some r =>
         if pair_lt (best_pos best)
              (r.index_within_archive, r.offset_within_entry) &&
            pair_le (r.index_within_archive, r.offset_within_entry) (want, 0)
         then some (i, r)
         else best
       | none => best)

/-- acquire_reader (main.cc lines 797-853).  `num_entries` is the number of
archive entries (see advance_index); `open_ok` is whether the fresh
archive_read_new / archive_read_open_filename path succeeds (external
library).  Returns the Reader (none on failure) and the updated cache. -/
def acquire_reader (num_entries : Nat) (open_ok : Bool)
    (cache : List (Option RState × Nat)) (want : Int) :
    Option RState × List (Option RState × Nat) :=
  if want < 0 then (none, cache)
  else
    match best_reader_loop want cache 0 none with
    | some (b, r) =>
      (advance_index num_entries r want, cache.set b (none, 0))
    | none =>
      if open_ok then (advance_index num_entries fresh_reader want, cache)
      else (none, cache)

/-- The argmin scan of release_reader (lowest LRU priority wins). -/
def release_oldest_loop : List (Option RState × Nat) → Nat → Nat × Nat → Nat × Nat
  | [], _, best => best
  | sr :: rest, i, best =>
    release_oldest_loop rest (i + 1)
      (if best.2 > sr.2 then (i, sr.2) else best)

/-- release_reader (main.cc lines 856-871): put r into the slot with the
lowest LRU priority, giving it the next (highest) priority. -/
def release_reader (cache : List (Option RState × Nat)) (next_lru : Nat)
    (r : RState) : List (Option RState × Nat) × Nat :=
  match cache with
  | [] => (cache, next_lru)
  | sr0 :: _ =>
    let oi := (release_oldest_loop cache.tail 1 (0, sr0.2)).1
    (cache.set oi (some r, next_lru + 1), next_lru + 1)

/-! ## C1 lemmas -/

theorem pair_le_refl (a : Int × Int) : pair_le a a = true := by
  simp [pair_le]

theorem pair_lt_false_iff (a b : Int × Int) :
    pair_lt a b = false ↔ pair_le b a = true := by
  simp only [pair_lt, pair_le, Bool.or_eq_false_iff, Bool.or_eq_true,
    Bool.and_eq_false_iff, Bool.and_eq_true, decide_eq_false_iff_not,
    decide_eq_true_eq]
  constructor
  · intro ⟨h1, h2⟩
    rcases h2 with h2 | h2 <;> omega
  · intro h
    rcases h with h | h <;> exact ⟨by omega, by omega⟩

theorem pair_le_trans_lt {a b c : Int × Int} (h1 : pair_le a b = true)
    (h2 : pair_lt b c = true) : pair_le a c = true := by
  simp only [pair_le, pair_lt, Bool.or_eq_true, Bool.and_eq_true,
    decide_eq_true_eq] at *
  rcases h1 with h1 | h1 <;> rcases h2 with h2 | h2 <;> omega

/-- Invariant of the acquire_reader scan. -/
def reader_loop_inv (want : Int) (done : List (Option RState × Nat))
    (best : Option (Nat × RState)) : Prop :=
  (best = none ∧ ∀ p ∈ done, ∀ r : RState, p.1 = some r →
    pair_le (r.index_within_archive, r.offset_within_entry) (want, 0) = false) ∨
  (∃ (b : Nat) (hb : b < done.length) (r : RState), best = some (b, r) ∧
    (done.get ⟨b, hb⟩).1 = some r ∧
    pair_le (r.index_within_archive, r.offset_within_entry) (want, 0) = true ∧
    ∀ p ∈ done, ∀ r' : RState, p.1 = some r' →
      pair_le (r'.index_within_archive, r'.offset_within_entry) (want, 0) = true →
      pair_le (r'.index_within_archive, r'.offset_within_entry)
        (r.index_within_archive, r.offset_within_entry) = true)

/-- Cached readers are well formed: index at least -1 and offset at least 0
(true of every Reader the program constructs). -/
def cache_wf (cache : List (Option RState × Nat)) : Prop :=
  ∀ p ∈ cache, ∀ r : RState, p.1 = some r →
    -1 ≤ r.index_within_archive ∧ 0 ≤ r.offset_within_entry

theorem reader_loop_step (want : Int) :
    ∀ (l done : List (Option RState × Nat)) (best : Option (Nat × RState)),
    cache_wf l → reader_loop_inv want done best →
    reader_loop_inv want (done ++ l) (best_reader_loop want l done.length best) := by
  intro l
  induction l with
  | nil =>
    intro done best _ hinv
    rw [best_reader_loop]
    simpa using hinv
  | cons sr rest ih =>
    intro done best hwf hinv
    rw [best_reader_loop]
    have hwf_rest : cache_wf rest := fun p hp => hwf p (List.mem_cons_of_mem _ hp)
    rcases hsr : sr.1 with _ | r
    · have hstep : reader_loop_inv want (done ++ [sr]) best := by
        rcases hinv with ⟨hb, hall⟩ | ⟨b, hb, r, hbest, hget, hq, hmax⟩
        · left
          refine ⟨hb, ?_⟩
          intro p hp r hr
          rcases List.mem_append.mp hp with hp | hp
          · exact hall p hp r hr
          · simp at hp
            subst hp
            rw [hsr] at hr
            exact absurd hr (by simp)
        · right
          refine ⟨b, by simp only [List.length_append, List.length_cons,
              List.length_nil]; omega, r, hbest, ?_, hq, ?_⟩
          · rw [get_append_first _ _ _ hb]
            exact hget
          · intro p hp r' hr' hq'
            rcases List.mem_append.mp hp with hp | hp
            · exact hmax p hp r' hr' hq'
            · simp at hp
              subst hp
              rw [hsr] at hr'
              exact absurd hr' (by simp)
      have hfin := ih (done ++ [sr]) best hwf_rest hstep
      simpa [hsr] using hfin
    · have hstep : reader_loop_inv want (done ++ [sr])
          (if pair_lt (best_pos best)
                (r.index_within_archive, r.offset_within_entry) &&
              pair_le (r.index_within_archive, r.offset_within_entry) (want, 0)
           then some (done.length, r) else best) := by
        by_cases hcond : pair_lt (best_pos best)
            (r.index_within_archive, r.offset_within_entry) = true ∧
            pair_le (r.index_within_archive, r.offset_within_entry) (want, 0) = true
        · rw [if_pos (by simp [hcond.1, hcond.2])]
          right
          refine ⟨done.length, by simp, r, rfl, ?_, hcond.2, ?_⟩
          · rw [get_append_last]
            exact hsr
          · intro p hp r' hr' hq'
            rcases List.mem_append.mp hp with hp | hp
            · rcases hinv with ⟨hb, hall⟩ | ⟨b, hb, rb, hbest, hget, hq, hmax⟩
              · exact absurd (hall p hp r' hr') (by simp [hq'])
              · have h1 := hmax p hp r' hr' hq'
                have h2 : pair_lt
                    (rb.index_within_archive, rb.offset_within_entry)
                    (r.index_within_archive, r.offset_within_entry) = true := by
                  have h3 := hcond.1
                  rw [hbest] at h3
                  exact h3
                exact pair_le_trans_lt h1 h2
            · simp at hp
              subst hp
              rw [hsr] at hr'
              simp at hr'
              subst hr'
              exact pair_le_refl _
        · rw [if_neg (by
            intro hc
            rw [Bool.and_eq_true] at hc
            exact hcond ⟨hc.1, hc.2⟩)]
          by_cases hq : pair_le (r.index_within_archive, r.offset_within_entry)
              (want, 0) = true
          · rcases hinv with ⟨hb, hall⟩ | ⟨b, hb, rb, hbest, hget, hqb, hmax⟩
            · exfalso
              have hwf_r := hwf sr (List.mem_cons_self _ _) r hsr
              apply hcond
              refine ⟨?_, hq⟩
              rw [hb]
              simp only [best_pos, pair_lt, Bool.or_eq_true, Bool.and_eq_true,
                decide_eq_true_eq]
              omega
            · have hnotlt : pair_lt (best_pos best)
                  (r.index_within_archive, r.offset_within_entry) = false := by
                by_contra hx
                simp only [Bool.not_eq_false] at hx
                exact hcond ⟨hx, hq⟩
              rw [hbest] at hnotlt
              simp only [best_pos] at hnotlt
              have hrle := (pair_lt_false_iff _ _).mp hnotlt
              right
              refine ⟨b, by simp only [List.length_append, List.length_cons,
                  List.length_nil]; omega, rb, hbest, ?_, hqb, ?_⟩
              · rw [get_append_first _ _ _ hb]
                exact hget
              · intro p hp r' hr' hq'
                rcases List.mem_append.mp hp with hp | hp
                · exact hmax p hp r' hr' hq'
                · simp at hp
                  subst hp
                  rw [hsr] at hr'
                  simp at hr'
                  subst hr'
                  exact hrle
          · rcases hinv with ⟨hb, hall⟩ | ⟨b, hb, rb, hbest, hget, hqb, hmax⟩
            · left
              refine ⟨hb, ?_⟩
              intro p hp r' hr'
              rcases List.mem_append.mp hp with hp | hp
              · exact hall p hp r' hr'
              · simp at hp
                subst hp
                rw [hsr] at hr'
                simp at hr'
                subst hr'
                simpa using hq
            · right
              refine ⟨b, by simp only [List.length_append, List.length_cons,
                  List.length_nil]; omega, rb, hbest, ?_, hqb, ?_⟩
              · rw [get_append_first _ _ _ hb]
                exact hget
              · intro p hp r' hr' hq'
                rcases List.mem_append.mp hp with hp | hp
                · exact hmax p hp r' hr' hq'
                · simp at hp
                  subst hp
                  rw [hsr] at hr'
                  simp at hr'
                  subst hr'
                  exact absurd hq' (by simpa using hq)
      have hfin := ih (done ++ [sr]) _ hwf_rest hstep
      simpa [hsr] using hfin

/-- C1 claim theorem. -/
theorem acquire_reader_spec :
    (∀ (ne : Nat) (open_ok : Bool) (cache : List (Option RState × Nat)) (want : Int),
      want < 0 → acquire_reader ne open_ok cache want = (none, cache)) ∧
    (∀ (ne : Nat) (open_ok : Bool) (cache : List (Option RState × Nat)) (want : Int),
      0 ≤ want → cache_wf cache →
      (∀ p ∈ cache, ∀ r : RState, p.1 = some r →
        pair_le (r.index_within_archive, r.offset_within_entry) (want, 0) = false) →
      acquire_reader ne open_ok cache want =
        (if open_ok then advance_index ne fresh_reader want else none, cache)) ∧
    (∀ (ne : Nat) (open_ok : Bool) (cache : List (Option RState × Nat)) (want : Int),
      0 ≤ want → cache_wf cache →
      ∀ p0 ∈ cache, ∀ r0 : RState, p0.1 = some r0 →
      pair_le (r0.index_within_archive, r0.offset_within_entry) (want, 0) = true →
      ∃ (b : Nat) (hb : b < cache.length) (r : RState),
        (cache.get ⟨b, hb⟩).1 = some r ∧
        pair_le (r.index_within_archive, r.offset_within_entry) (want, 0) = true ∧
        (∀ p ∈ cache, ∀ r' : RState, p.1 = some r' →
          pair_le (r'.index_within_archive, r'.offset_within_entry) (want, 0) = true →
          pair_le (r'.index_within_archive, r'.offset_within_entry)
            (r.index_within_archive, r.offset_within_entry) = true) ∧
        acquire_reader ne open_ok cache want =
          (advance_index ne r want, cache.set b (none, 0))) := by
  refine ⟨?_, ?_, ?_⟩
  · intro ne open_ok cache want h
    rw [acquire_reader, if_pos h]
  · intro ne open_ok cache want hw hwf hall
    have hinv := reader_loop_step want cache [] none hwf (Or.inl ⟨rfl, by simp⟩)
    simp only [List.nil_append, List.length_nil] at hinv
    rw [reader_loop_inv] at hinv
    rcases hinv with ⟨hb, _⟩ | ⟨b, hb, r, hbest, hget, hq, _⟩
    · rw [acquire_reader, if_neg (by omega), hb]
      cases open_ok <;> rfl
    · have := hall _ (List.get_mem cache b hb)
      rw [List.get_eq_getElem] at hget
      exact absurd (this r hget) (by simp [hq])
  · intro ne open_ok cache want hw hwf p0 hp0 r0 hr0 hq0
    have hinv := reader_loop_step want cache [] none hwf (Or.inl ⟨rfl, by simp⟩)
    simp only [List.nil_append, List.length_nil] at hinv
    rw [reader_loop_inv] at hinv
    rcases hinv with ⟨_, hall⟩ | ⟨b, hb, r, hbest, hget, hq, hmax⟩
    · exact absurd (hall p0 hp0 r0 hr0) (by simp [hq0])
    · refine ⟨b, hb, r, hget, hq, hmax, ?_⟩
      rw [acquire_reader, if_neg (by omega), hbest]

/-- C1 witness. -/
theorem acquire_reader_spec_witness :
    (acquire_reader 10 true [(some ⟨true, true, 5, 0⟩, 3)] (-1) =
      (none, [(some ⟨true, true, 5, 0⟩, 3)])) ∧
    (acquire_reader 10 true [(some ⟨true, true, 5, 0⟩, 3)] 3 =
      (if true then advance_index 10 fresh_reader 3 else none,
       [(some ⟨true, true, 5, 0⟩, 3)])) ∧
    (∃ (b : Nat)
       (hb : b < ([(some ⟨true, true, 5, 0⟩, 3), (none, 0),
                   (some ⟨true, true, 1, 7⟩, 2)] :
                  List (Option RState × Nat)).length)
       (r : RState),
      (([(some ⟨true, true, 5, 0⟩, 3), (none, 0), (some ⟨true, true, 1, 7⟩, 2)] :
        List (Option RState × Nat)).get ⟨b, hb⟩).1 = some r ∧
      pair_le (r.index_within_archive, r.offset_within_entry) (3, 0) = true ∧
      (∀ p ∈ ([(some ⟨true, true, 5, 0⟩, 3), (none, 0),
               (some ⟨true, true, 1, 7⟩, 2)] : List (Option RState × Nat)),
        ∀ r' : RState, p.1 = some r' →
        pair_le (r'.index_within_archive, r'.offset_within_entry) (3, 0) = true →
        pair_le (r'.index_within_archive, r'.offset_within_entry)
          (r.index_within_archive, r.offset_within_entry) = true) ∧
      acquire_reader 10 true
          [(some ⟨true, true, 5, 0⟩, 3), (none, 0), (some ⟨true, true, 1, 7⟩, 2)] 3 =
        (advance_index 10 r 3,
         ([(some ⟨true, true, 5, 0⟩, 3), (none, 0), (some ⟨true, true, 1, 7⟩, 2)] :
          List (Option RState × Nat)).set b (none, 0))) := by
  refine ⟨?_, ?_, ?_⟩
  · exact acquire_reader_spec.1 10 true _ (-1) (by norm_num)
  · exact acquire_reader_spec.2.1 10 true _ 3 (by norm_num)
      (by
        intro p hp r hr
        fin_cases hp
        simp at hr
        rw [← hr]
        exact ⟨by norm_num, by norm_num⟩)
      (by
        intro p hp r hr
        fin_cases hp
        simp at hr
        rw [← hr]
        decide)
  · exact acquire_reader_spec.2.2 10 true _ 3 (by norm_num)
      (by
        intro p hp r hr
        fin_cases hp <;> simp at hr <;> rw [← hr] <;>
          exact ⟨by norm_num, by norm_num⟩)
      (some ⟨true, true, 1, 7⟩, 2) (by simp) ⟨true, true, 1, 7⟩ rfl (by decide)

/-! ## my_read (main.cc lines 1442-1509): C4 and C9 definitions -/

/-- The int64 → uint64 conversion in `const uint64_t i = r->index_within_archive`
(reduction modulo 2^64 = 18446744073709551616). -/
def toUInt64 (i : Int) : Nat := (i % (18446744073709551616 : Int)).toNat

/-- The serving-time global state touched by my_read: the side-buffer pool
(g_side_buffer_metadata and the next_lru_priority counter) and the reader
cache (g_saved_readers and release_reader's static counter). -/
structure FSState where
  pool : List SBMeta
  lru_ctr : Nat
  cache : List (Option RState × Nat)
  release_ctr : Nat
deriving Repr, DecidableEq

/-- The tail of my_read after the side-buffer miss and any Reader swap:
advance_offset to the requested offset and read.  `none` models abort(). -/
def my_read_stream (resps : List Int) (read_resp : Int) (r : RState)
    (dlen : Nat) (offset : Int) (st : FSState) :
    Option (Int × Option (List Nat) × Option RState × FSState) :=
  match advance_offset offset resps r st.pool st.lru_ctr with
  | none => none
  | some (ok, r2, pool2, ctr2, _) =>
    if ok = false then
      some (-errno_io, none, some r2, { st with pool := pool2, lru_ctr := ctr2 })
    else
      match reader_read r2 dlen read_resp with
      | none => none
      | some (n, r3) =>
        some (n, none, some r3, { st with pool := pool2, lru_ctr := ctr2 })

/-- my_read.  `fh` is the Reader carried by the file handle (ffi->fh);
`nodes_by_index` is g_nodes_by_index; `data` is g_side_buffer_data;
`resps` / `read_resp` are the archive_read_data oracles for advance_offset
and the final read; `_pathname` is only ever used by the source for log
messages.  The result is (return value, bytes copied on a side-buffer hit,
the handle's Reader afterwards, the global state afterwards); `none`
models abort(). -/
def my_read (num_entries : Nat) (open_ok : Bool)
    (nodes_by_index : List (Option TNode)) (data : Nat → Nat → Nat)
    (resps : List Int) (read_resp : Int) (_pathname : List Char)
    (fh : Option RState) (dst_len : Nat) (offset : Int) (st : FSState) :
    Option (Int × Option (List Nat) × Option RState × FSState) :=
  if offset < 0 ∨ INT_MAX < dst_len then some (-errno_inval, none, fh, st)
  else
    match fh with
    | none => some (-errno_io, none, none, st)
    | some r =>
      if r.hasArchive = false ∨ r.hasEntry = false then
        some (-errno_io, none, some r, st)
      else
        if nodes_by_index.length ≤ toUInt64 r.index_within_archive then
          some (-errno_io, none, some r, st)
        else
          match nodes_by_index.getD (toUInt64 r.index_within_archive) none with
          | none => some (-errno_io, none, some r, st)
          | some n =>
            if n.size < 0 then some (-errno_io, none, some r, st)
            else if n.size ≤ offset then some (0, none, some r, st)
            else
              let remaining := (n.size - offset).toNat
              let dlen := if remaining < dst_len then remaining else dst_len
              if dlen = 0 then some (0, none, some r, st)
              else
                match read_from_side_buffer st.pool data st.lru_ctr
                    r.index_within_archive dlen offset with
                | (some bytes, pool2, ctr2) =>
                  some ((dlen : Int), some bytes, some r,
                    { st with pool := pool2, lru_ctr := ctr2 })
                | (none, _, _) =>
                  if offset < r.offset_within_entry then
                    match acquire_reader num_entries open_ok st.cache
                        r.index_within_archive with
                    | (none, cache2) =>
                      some (-errno_io, none, some r, { st with cache := cache2 })
                    | (some r2, cache2) =>
                      if r2.hasArchive = false ∨ r2.hasEntry = false then
                        some (-errno_io, none, some r, { st with cache := cache2 })
                      else
                        let rel := release_reader cache2 st.release_ctr r
                        my_read_stream resps read_resp r2 dlen offset
                          { st with cache := rel.1, release_ctr := rel.2 }
                  else
                    my_read_stream resps read_resp r dlen offset st

/-! ## C4 and C9 lemmas -/

theorem read_from_side_buffer_some_length {metas : List SBMeta}
    {data : Nat → Nat → Nat} {next : Nat} {idx : Int} {len : Nat} {off : Int}
    {bytes : List Nat} {pool2 : List SBMeta} {ctr2 : Nat}
    (h : read_from_side_buffer metas data next idx len off =
      (some bytes, pool2, ctr2)) : bytes.length = len := by
  rw [read_from_side_buffer] at h
  split_ifs at h with hge
  · rcases hm : metas[(best_side_buffer_loop idx off len metas 0 (-1, -1)).1.toNat]? with _ | m
    · simp only [hm] at h
      simp at h
    · simp only [hm, Prod.mk.injEq, Option.some_inj] at h
      rw [← h.1]
      simp
  · simp at h

/-- C4 claim theorem: my_read validation, clamping, and the side-buffer
fast path (which returns the clamped length without touching the Reader,
the reader cache or the decompression library oracles). -/
theorem my_read_validation_spec :
    (∀ (ne : Nat) (ok : Bool) (nbi : List (Option TNode)) (data : Nat → Nat → Nat)
        (resps : List Int) (rr : Int) (p : List Char) (fh : Option RState)
        (dl : Nat) (off : Int) (st : FSState),
      off < 0 →
      my_read ne ok nbi data resps rr p fh dl off st =
        some (-errno_inval, none, fh, st)) ∧
    (∀ (ne : Nat) (ok : Bool) (nbi : List (Option TNode)) (data : Nat → Nat → Nat)
        (resps : List Int) (rr : Int) (p : List Char) (fh : Option RState)
        (dl : Nat) (off : Int) (st : FSState),
      INT_MAX < dl →
      my_read ne ok nbi data resps rr p fh dl off st =
        some (-errno_inval, none, fh, st)) ∧
    (∀ (ne : Nat) (ok : Bool) (nbi : List (Option TNode)) (data : Nat → Nat → Nat)
        (resps : List Int) (rr : Int) (p : List Char) (r : RState)
        (dl : Nat) (off : Int) (st : FSState) (n : TNode),
      0 ≤ off → dl ≤ INT_MAX →
      r.hasArchive = true → r.hasEntry = true →
      toUInt64 r.index_within_archive < nbi.length →
      nbi.getD (toUInt64 r.index_within_archive) none = some n →
      0 ≤ n.size → n.size ≤ off →
      my_read ne ok nbi data resps rr p (some r) dl off st =
        some (0, none, some r, st)) ∧
    (∀ (ne : Nat) (ok : Bool) (nbi : List (Option TNode)) (data : Nat → Nat → Nat)
        (resps : List Int) (rr : Int) (p : List Char) (r : RState)
        (dl : Nat) (off : Int) (st : FSState) (n : TNode) (dlen : Nat)
        (bytes : List Nat) (pool2 : List SBMeta) (ctr2 : Nat),
      0 ≤ off → dl ≤ INT_MAX →
      r.hasArchive = true → r.hasEntry = true →
      toUInt64 r.index_within_archive < nbi.length →
      nbi.getD (toUInt64 r.index_within_archive) none = some n →
      0 ≤ n.size → off < n.size →
      dlen = (if (n.size - off).toNat < dl then (n.size - off).toNat else dl) →
      dlen ≠ 0 →
      read_from_side_buffer st.pool data st.lru_ctr r.index_within_archive
        dlen off = (some bytes, pool2, ctr2) →
      (my_read ne ok nbi data resps rr p (some r) dl off st =
        some ((dlen : Int), some bytes, some r,
          { st with pool := pool2, lru_ctr := ctr2 }) ∧
       bytes.length = dlen)) := by
  refine ⟨?_, ?_, ?_, ?_⟩
  · intro ne ok nbi data resps rr p fh dl off st h
    rw [my_read.eq_def, if_pos (Or.inl h)]
  · intro ne ok nbi data resps rr p fh dl off st h
    rw [my_read.eq_def, if_pos (Or.inr h)]
  · intro ne ok nbi data resps rr p r dl off st n hoff hdl ha he hlen hnode
      hsz hle
    rw [my_read.eq_def, if_neg (by push_neg; exact ⟨by omega, by omega⟩)]
    simp only
    rw [if_neg (by simp [ha, he]), if_neg (by omega)]
    simp only [hnode]
    rw [if_neg (by omega), if_pos hle]
  · intro ne ok nbi data resps rr p r dl off st n dlen bytes pool2 ctr2 hoff
      hdl ha he hlen hnode hsz hlt hdlen hne hhit
    refine ⟨?_, read_from_side_buffer_some_length hhit⟩
    rw [my_read.eq_def, if_neg (by push_neg; exact ⟨by omega, by omega⟩)]
    simp only
    rw [if_neg (by simp [ha, he]), if_neg (by omega)]
    simp only [hnode]
    rw [if_neg (by omega), if_neg (by omega)]
    rw [← hdlen]
    rw [if_neg hne]
    simp only [hhit]

/-- C9 claim theorem: my_read serves the file identified by the Reader's
index_within_archive only (the pathname argument does not influence the
result), and returns -EIO when the handle holds no usable Reader, the
index is at or beyond nodes_by_index's length, the slot is a gap, or the
recorded size is negative. -/
theorem my_read_by_index_spec :
    (∀ (ne : Nat) (ok : Bool) (nbi : List (Option TNode)) (data : Nat → Nat → Nat)
        (resps : List Int) (rr : Int) (p1 p2 : List Char) (fh : Option RState)
        (dl : Nat) (off : Int) (st : FSState),
      my_read ne ok nbi data resps rr p1 fh dl off st =
      my_read ne ok nbi data resps rr p2 fh dl off st) ∧
    (∀ (ne : Nat) (ok : Bool) (nbi : List (Option TNode)) (data : Nat → Nat → Nat)
        (resps : List Int) (rr : Int) (p : List Char) (dl : Nat) (off : Int)
        (st : FSState),
      0 ≤ off → dl ≤ INT_MAX →
      my_read ne ok nbi data resps rr p none dl off st =
        some (-errno_io, none, none, st)) ∧
    (∀ (ne : Nat) (ok : Bool) (nbi : List (Option TNode)) (data : Nat → Nat → Nat)
        (resps : List Int) (rr : Int) (p : List Char) (r : RState) (dl : Nat)
        (off : Int) (st : FSState),
      0 ≤ off → dl ≤ INT_MAX →
      (r.hasArchive = false ∨ r.hasEntry = false) →
      my_read ne ok nbi data resps rr p (some r) dl off st =
        some (-errno_io, none, some r, st)) ∧
    (∀ (ne : Nat) (ok : Bool) (nbi : List (Option TNode)) (data : Nat → Nat → Nat)
        (resps : List Int) (rr : Int) (p : List Char) (r : RState) (dl : Nat)
        (off : Int) (st : FSState),
      0 ≤ off → dl ≤ INT_MAX →
      r.hasArchive = true → r.hasEntry = true →
      nbi.length ≤ toUInt64 r.index_within_archive →
      my_read ne ok nbi data resps rr p (some r) dl off st =
        some (-errno_io, none, some r, st)) ∧
    (∀ (ne : Nat) (ok : Bool) (nbi : List (Option TNode)) (data : Nat → Nat → Nat)
        (resps : List Int) (rr : Int) (p : List Char) (r : RState) (dl : Nat)
        (off : Int) (st : FSState),
      0 ≤ off → dl ≤ INT_MAX →
      r.hasArchive = true → r.hasEntry = true →
      toUInt64 r.index_within_archive < nbi.length →
      nbi.getD (toUInt64 r.index_within_archive) none = none →
      my_read ne ok nbi data resps rr p (some r) dl off st =
        some (-errno_io, none, some r, st)) ∧
    (∀ (ne : Nat) (ok : Bool) (nbi : List (Option TNode)) (data : Nat → Nat → Nat)
        (resps : List Int) (rr : Int) (p : List Char) (r : RState) (dl : Nat)
        (off : Int) (st : FSState) (n : TNode),
      0 ≤ off → dl ≤ INT_MAX →
      r.hasArchive = true → r.hasEntry = true →
      toUInt64 r.index_within_archive < nbi.length →
      nbi.getD (toUInt64 r.index_within_archive) none = some n →
      n.size < 0 →
      my_read ne ok nbi data resps rr p (some r) dl off st =
        some (-errno_io, none, some r, st)) := by
  refine ⟨?_, ?_, ?_, ?_, ?_, ?_⟩
  · intro ne ok nbi data resps rr p1 p2 fh dl off st
    rfl
  · intro ne ok nbi data resps rr p dl off st hoff hdl
    rw [my_read.eq_def, if_neg (by push_neg; exact ⟨by omega, by omega⟩)]
  · intro ne ok nbi data resps rr p r dl off st hoff hdl hdead
    rw [my_read.eq_def, if_neg (by push_neg; exact ⟨by omega, by omega⟩)]
    simp only
    rw [if_pos hdead]
  · intro ne ok nbi data resps rr p r dl off st hoff hdl ha he hrange
    rw [my_read.eq_def, if_neg (by push_neg; exact ⟨by omega, by omega⟩)]
    simp only
    rw [if_neg (by simp [ha, he]), if_pos hrange]
  · intro ne ok nbi data resps rr p r dl off st hoff hdl ha he hlt hnone
    rw [my_read.eq_def, if_neg (by push_neg; exact ⟨by omega, by omega⟩)]
    simp only
    rw [if_neg (by simp [ha, he]), if_neg (by omega)]
    simp only [hnone]
  · intro ne ok nbi data resps rr p r dl off st n hoff hdl ha he hlt hnode hneg
    rw [my_read.eq_def, if_neg (by push_neg; exact ⟨by omega, by omega⟩)]
    simp only
    rw [if_neg (by simp [ha, he]), if_neg (by omega)]
    simp only [hnode]
    rw [if_pos hneg]

/-- C4 witness. -/
theorem my_read_validation_spec_witness :
    (my_read 4 true [none, some ⟨['f'], [], 1, 100, 7, 0o100644⟩]
        (fun _ p => p) [] 0 ['x'] (some ⟨true, true, 1, 0⟩) 5 (-1)
        ⟨[⟨1, 0, 50, 3⟩], 5, [], 0⟩ =
      some (-errno_inval, none, some ⟨true, true, 1, 0⟩,
        ⟨[⟨1, 0, 50, 3⟩], 5, [], 0⟩)) ∧
    (my_read 4 true [none, some ⟨['f'], [], 1, 100, 7, 0o100644⟩]
        (fun _ p => p) [] 0 ['x'] (some ⟨true, true, 1, 0⟩) 2147483648 10
        ⟨[⟨1, 0, 50, 3⟩], 5, [], 0⟩ =
      some (-errno_inval, none, some ⟨true, true, 1, 0⟩,
        ⟨[⟨1, 0, 50, 3⟩], 5, [], 0⟩)) ∧
    (my_read 4 true [none, some ⟨['f'], [], 1, 100, 7, 0o100644⟩]
        (fun _ p => p) [] 0 ['x'] (some ⟨true, true, 1, 0⟩) 5 200
        ⟨[⟨1, 0, 50, 3⟩], 5, [], 0⟩ =
      some (0, none, some ⟨true, true, 1, 0⟩, ⟨[⟨1, 0, 50, 3⟩], 5, [], 0⟩)) ∧
    (my_read 4 true [none, some ⟨['f'], [], 1, 100, 7, 0o100644⟩]
        (fun _ p => p) [] 0 ['x'] (some ⟨true, true, 1, 0⟩) 5 10
        ⟨[⟨1, 0, 50, 3⟩], 5, [], 0⟩ =
      some (5, some [10, 11, 12, 13, 14], some ⟨true, true, 1, 0⟩,
        ⟨[⟨1, 0, 50, 6⟩], 6, [], 0⟩) ∧
      ([10, 11, 12, 13, 14] : List Nat).length = 5) := by
  refine ⟨?_, ?_, ?_, ?_⟩
  · exact my_read_validation_spec.1 4 true _ _ [] 0 ['x'] _ 5 (-1) _ (by norm_num)
  · exact my_read_validation_spec.2.1 4 true _ _ [] 0 ['x'] _ 2147483648 10 _
      (by norm_num [INT_MAX])
  · exact my_read_validation_spec.2.2.1 4 true _ _ [] 0 ['x'] ⟨true, true, 1, 0⟩
      5 200 _ ⟨['f'], [], 1, 100, 7, 0o100644⟩ (by norm_num)
      (by norm_num [INT_MAX]) rfl rfl (by decide) (by decide) (by norm_num)
      (by norm_num)
  · have h := my_read_validation_spec.2.2.2 4 true
      [none, some ⟨['f'], [], 1, 100, 7, 0o100644⟩] (fun _ p => p) [] 0 ['x']
      ⟨true, true, 1, 0⟩ 5 10 ⟨[⟨1, 0, 50, 3⟩], 5, [], 0⟩
      ⟨['f'], [], 1, 100, 7, 0o100644⟩ 5 [10, 11, 12, 13, 14] [⟨1, 0, 50, 6⟩] 6
      (by norm_num) (by norm_num [INT_MAX]) rfl rfl (by decide) (by decide)
      (by norm_num) (by norm_num) (by decide) (by norm_num) (by decide)
    exact ⟨h.1, h.2⟩

/-- C9 witness. -/
theorem my_read_by_index_spec_witness :
    (my_read 4 true [] (fun _ p => p) [] 0 ['a'] none 1 0 ⟨[], 0, [], 0⟩ =
     my_read 4 true [] (fun _ p => p) [] 0 ['b'] none 1 0 ⟨[], 0, [], 0⟩) ∧
    (my_read 4 true [] (fun _ p => p) [] 0 ['a'] none 1 0 ⟨[], 0, [], 0⟩ =
      some (-errno_io, none, none, ⟨[], 0, [], 0⟩)) ∧
    (my_read 4 true [] (fun _ p => p) [] 0 ['a'] (some ⟨false, false, 0, 0⟩) 1 0
        ⟨[], 0, [], 0⟩ =
      some (-errno_io, none, some ⟨false, false, 0, 0⟩, ⟨[], 0, [], 0⟩)) ∧
    (my_read 4 true [none, none] (fun _ p => p) [] 0 ['a']
        (some ⟨true, true, 5, 0⟩) 1 0 ⟨[], 0, [], 0⟩ =
      some (-errno_io, none, some ⟨true, true, 5, 0⟩, ⟨[], 0, [], 0⟩)) ∧
    (my_read 4 true [none, none] (fun _ p => p) [] 0 ['a']
        (some ⟨true, true, 0, 0⟩) 1 0 ⟨[], 0, [], 0⟩ =
      some (-errno_io, none, some ⟨true, true, 0, 0⟩, ⟨[], 0, [], 0⟩)) ∧
    (my_read 4 true [some ⟨['f'], [], 0, -7, 7, 0o100644⟩] (fun _ p => p) [] 0
        ['a'] (some ⟨true, true, 0, 0⟩) 1 0 ⟨[], 0, [], 0⟩ =
      some (-errno_io, none, some ⟨true, true, 0, 0⟩, ⟨[], 0, [], 0⟩)) := by
  refine ⟨?_, ?_, ?_, ?_, ?_, ?_⟩
  · exact my_read_by_index_spec.1 4 true [] _ [] 0 ['a'] ['b'] none 1 0 _
  · exact my_read_by_index_spec.2.1 4 true [] _ [] 0 ['a'] 1 0 _ (by norm_num)
      (by norm_num [INT_MAX])
  · exact my_read_by_index_spec.2.2.1 4 true [] _ [] 0 ['a'] ⟨false, false, 0, 0⟩
      1 0 _ (by norm_num) (by norm_num [INT_MAX]) (Or.inl rfl)
  · exact my_read_by_index_spec.2.2.2.1 4 true [none, none] _ [] 0 ['a']
      ⟨true, true, 5, 0⟩ 1 0 _ (by norm_num) (by norm_num [INT_MAX]) rfl rfl
      (by decide)
  · exact my_read_by_index_spec.2.2.2.2.1 4 true [none, none] _ [] 0 ['a']
      ⟨true, true, 0, 0⟩ 1 0 _ (by norm_num) (by norm_num [INT_MAX]) rfl rfl
      (by decide) (by decide)
  · exact my_read_by_index_spec.2.2.2.2.2 4 true
      [some ⟨['f'], [], 0, -7, 7, 0o100644⟩] _ [] 0 ['a'] ⟨true, true, 0, 0⟩ 1 0
      _ ⟨['f'], [], 0, -7, 7, 0o100644⟩ (by norm_num) (by norm_num [INT_MAX])
      rfl rfl (by decide) (by decide) (by norm_num)

/-! ## The directory-tree invariant (C7, C10) -/

theorem tree_find_update_eq (l : List (PathKey × TNode)) (k : PathKey)
    (f : TNode → TNode) :
    tree_find (tree_update l k f) k = (tree_find l k).map f := by
  induction l with
  | nil => rfl
  | cons kv rest ih =>
    by_cases hk : kv.1 = k
    · simp [tree_find, tree_update, List.find?, hk]
    · simp only [tree_find, tree_update, List.map_cons, List.find?, if_neg hk] at ih ⊢
      rw [show (decide (kv.1 = k)) = false by simp [hk]]
      exact ih

theorem tree_find_update_ne (l : List (PathKey × TNode)) (k k' : PathKey)
    (f : TNode → TNode) (h : k' ≠ k) :
    tree_find (tree_update l k f) k' = tree_find l k' := by
  induction l with
  | nil => rfl
  | cons kv rest ih =>
    by_cases hk : kv.1 = k
    · simp only [tree_find, tree_update, List.map_cons, List.find?, if_pos hk]
      rw [decide_eq_false (show ¬ kv.1 = k' from fun hx => h (hk ▸ hx).symm)]
      exact ih
    · simp only [tree_find, tree_update, List.map_cons, List.find?, if_neg hk] at ih ⊢
      by_cases hk2 : kv.1 = k'
      · rw [show (decide (kv.1 = k')) = true by simp [hk2]]
      · rw [show (decide (kv.1 = k')) = false by simp [hk2]]
        exact ih

theorem tree_find_append_left {l : List (PathKey × TNode)}
    (l2 : List (PathKey × TNode)) {k : PathKey} {n : TNode}
    (h : tree_find l k = some n) : tree_find (l ++ l2) k = some n := by
  induction l with
  | nil => simp [tree_find] at h
  | cons kv rest ih =>
    by_cases hk : kv.1 = k
    · simp only [tree_find, List.find?, show (decide (kv.1 = k)) = true by simp [hk]]
        at h ⊢
      simpa using h
    · simp only [tree_find, List.cons_append, List.find?,
        show (decide (kv.1 = k)) = false by simp [hk]] at h ⊢
      exact ih h

theorem tree_find_append_fresh {l : List (PathKey × TNode)} {k : PathKey}
    (n : TNode) (h : tree_find l k = none) :
    tree_find (l ++ [(k, n)]) k = some n := by
  induction l with
  | nil => simp [tree_find, List.find?]
  | cons kv rest ih =>
    by_cases hk : kv.1 = k
    · simp only [tree_find, List.find?, show (decide (kv.1 = k)) = true by simp [hk]]
        at h
      simp at h
    · simp only [tree_find, List.cons_append, List.find?,
        show (decide (kv.1 = k)) = false by simp [hk]] at h ⊢
      exact ih h

theorem tree_find_append_none {l : List (PathKey × TNode)} {k k' : PathKey}
    (n : TNode) (h : tree_find l k' = none) (h2 : k' ≠ k) :
    tree_find (l ++ [(k, n)]) k' = none := by
  induction l with
  | nil =>
    simp only [tree_find, List.nil_append, List.find?]
    rw [decide_eq_false (show ¬ k = k' from fun hx => h2 hx.symm)]
    rfl
  | cons kv rest ih =>
    by_cases hk : kv.1 = k'
    · simp only [tree_find, List.find?, show (decide (kv.1 = k')) = true by simp [hk]]
        at h
      simp at h
    · simp only [tree_find, List.cons_append, List.find?,
        show (decide (kv.1 = k')) = false by simp [hk]] at h ⊢
      exact ih h

/-- Single-lemma description of lookups after an update. -/
theorem tree_find_update (l : List (PathKey × TNode)) (k k' : PathKey)
    (f : TNode → TNode) :
    tree_find (tree_update l k f) k' =
      if k' = k then (tree_find l k).map f else tree_find l k' := by
  by_cases h : k' = k
  · subst h
    rw [if_pos rfl, tree_find_update_eq]
  · rw [if_neg h, tree_find_update_ne _ _ _ _ h]

theorem and_lor_right (a b c : Nat) :
    (a ||| b) &&& c = (a &&& c) ||| (b &&& c) := by
  apply Nat.eq_of_testBit_eq
  intro i
  simp [Nat.testBit_land, Nat.testBit_lor, Bool.and_or_distrib_right]

theorem bsub_trans {a b c : Nat} (h1 : a ||| b = b) (h2 : b ||| c = c) :
    a ||| c = c := by
  rw [← h2, ← Nat.lor_assoc, h1]

theorem bsub_or_right (a b : Nat) : a ||| (b ||| a) = b ||| a := by
  rw [Nat.lor_comm b a, ← Nat.lor_assoc, Nat.or_self]

theorem bsub_or_left (a b : Nat) : a ||| (a ||| b) = a ||| b := by
  rw [← Nat.lor_assoc, Nat.or_self]

theorem small_and_ifmt {a : Nat} (h : a < 4096) : a &&& S_IFMT = 0 := by
  apply Nat.eq_of_testBit_eq
  intro i
  by_cases h12 : i < 12
  · have hm : S_IFMT.testBit i = false := by interval_cases i <;> decide
    simp [Nat.testBit_land, hm]
  · have ha : a.testBit i = false := by
      apply Nat.testBit_eq_false_of_lt
      calc a < 4096 := h
        _ = 2 ^ 12 := by norm_num
        _ ≤ 2 ^ i := Nat.pow_le_pow_right (by norm_num) (by omega)
    simp [Nat.testBit_land, ha]

theorem type_or {a b : Nat} (ha : a &&& S_IFMT = S_IFDIR)
    (hb : b &&& S_IFMT = S_IFDIR) : (a ||| b) &&& S_IFMT = S_IFDIR := by
  rw [and_lor_right, ha, hb, Nat.or_self]

theorem rx_lt (mode : Nat) : mode &&& 0o555 < 4096 :=
  lt_of_le_of_lt Nat.and_le_right (by norm_num)

theorem r2_lt (mode : Nat) : ((mode &&& 0o555 &&& 0o444) >>> 2) < 4096 := by
  have h1 : (mode &&& 0o555 &&& 0o444) >>> 2 ≤ mode &&& 0o555 &&& 0o444 := by
    rw [Nat.shiftRight_eq_div_pow]
    exact Nat.div_le_self _ _
  have h2 : mode &&& 0o555 &&& 0o444 ≤ 0o444 := Nat.and_le_right
  omega

theorem branch_mode_dirtype (mode : Nat) :
    ((mode &&& 0o555) ||| ((mode &&& 0o555 &&& 0o444) >>> 2) ||| S_IFDIR) &&&
      S_IFMT = S_IFDIR := by
  have h1 : ((mode &&& 0o555) ||| ((mode &&& 0o555 &&& 0o444) >>> 2)) &&&
      S_IFMT = 0 := by
    apply small_and_ifmt
    have := Nat.or_lt_two_pow (n := 12)
      (by simpa using rx_lt mode) (by simpa using r2_lt mode)
    simpa using this
  rw [and_lor_right, h1, Nat.zero_or]
  decide

theorem branchBits_leaf (mode F : Nat) (hF5 : F &&& 0o555 = 0)
    (hF4 : F &&& 0o444 = 0) :
    branchBitsOf ((mode &&& 0o555) ||| F) =
      (mode &&& 0o555) ||| ((mode &&& 0o555 &&& 0o444) >>> 2) := by
  unfold branchBitsOf
  rw [and_lor_right, hF5, Nat.or_zero, and_lor_right, hF4, Nat.or_zero]
  rw [Nat.land_assoc, show (0o555 &&& 0o555 : Nat) = 0o555 from by decide]

theorem ifdir_sub_of_dir {mode : Nat} (h : mode &&& S_IFMT = S_IFDIR) :
    S_IFDIR ||| mode = mode := by
  have h14 : mode.testBit 14 = true := by
    have := congrArg (fun x => x.testBit 14) h
    simp only [Nat.testBit_land] at this
    rw [show S_IFMT.testBit 14 = true from by decide,
      show S_IFDIR.testBit 14 = true from by decide] at this
    simpa using this
  apply Nat.eq_of_testBit_eq
  intro i
  by_cases hi : i = 14
  · subst hi
    simp [Nat.testBit_lor, h14]
  · have : S_IFDIR.testBit i = false := by
      by_cases hlt : i < 15
      · interval_cases i <;> first | decide | exact absurd rfl hi
      · apply Nat.testBit_eq_false_of_lt
        calc S_IFDIR < 2 ^ 15 := by decide
          _ ≤ 2 ^ i := Nat.pow_le_pow_right (by norm_num) (by omega)
    simp [Nat.testBit_lor, this]

theorem walk_update_dir {n : TNode} {m : Int} {bm : Nat} (hd : n.is_dir = true)
    (hbm : bm &&& S_IFMT = S_IFDIR) : (walk_update_node m bm n).is_dir = true := by
  simp only [TNode.is_dir, S_ISDIR, beq_iff_eq, walk_update_node] at hd ⊢
  exact type_or hd hbm

theorem walk_update_mtime_old {n : TNode} {m : Int} {bm : Nat} :
    n.mtime ≤ (walk_update_node m bm n).mtime := by
  simp only [walk_update_node]
  split <;> omega

theorem walk_update_mtime_new {n : TNode} {m : Int} {bm : Nat} :
    m ≤ (walk_update_node m bm n).mtime := by
  simp only [walk_update_node]
  split <;> omega

theorem walk_update_mtime_le {n : TNode} {m t : Int} {bm : Nat}
    (h1 : n.mtime ≤ t) (h2 : m ≤ t) : (walk_update_node m bm n).mtime ≤ t := by
  simp only [walk_update_node]
  split <;> omega

theorem walk_update_mode {n : TNode} {m : Int} {bm : Nat} :
    (walk_update_node m bm n).mode = n.mode ||| bm := rfl

theorem tree_find_append (l : List (PathKey × TNode)) (k k' : PathKey) (n : TNode) :
    tree_find (l ++ [(k, n)]) k' =
      (tree_find l k').or (if k' = k then some n else none) := by
  cases h : tree_find l k' with
  | some m => rw [tree_find_append_left _ h]; rfl
  | none =>
    by_cases hk : k' = k
    · subst hk
      rw [tree_find_append_fresh n h, if_pos rfl]
      rfl
    · rw [tree_find_append_none n h hk, if_neg hk]
      rfl

theorem find_ins (L : List (PathKey × TNode)) (pp : PathKey) (x : List Char)
    (nd : TNode) (k : PathKey) (habs : tree_find L (pp ++ [x]) = none) :
    tree_find (tree_update (L ++ [(pp ++ [x], nd)]) pp size_bump) k =
      if k = pp ++ [x] then some nd
      else if k = pp then (tree_find L pp).map size_bump
      else tree_find L k := by
  have hne : pp ++ [x] ≠ pp := by
    intro h
    have := congrArg List.length h
    simp at this
  simp only [tree_find_update, tree_find_append]
  by_cases hk : k = pp ++ [x]
  · subst hk
    simp [hne, habs]
  · by_cases hk2 : k = pp
    · subst hk2
      simp [hk, hne]
    · simp [hk, hk2]

theorem path_snoc_ne (pp : PathKey) (x : List Char) : pp ++ [x] ≠ pp := by
  intro he
  have := congrArg List.length he
  simp at this

theorem insert_walk_nil (sy : List Char) (iwa sz mt : Int) (bm lm : Nat)
    (st : TreeState) (pp : PathKey) :
    insert_walk sy iwa sz mt bm lm st pp [] =
      { st with
        nodes_by_name := tree_update st.nodes_by_name pp (walk_update_node mt bm) } := rfl

theorem insert_walk_leaf_hit (sy : List Char) (iwa sz mt : Int) (bm lm : Nat)
    (st : TreeState) (pp : PathKey) (last : List Char) (x : TNode)
    (h : tree_find st.nodes_by_name (pp ++ [last]) = some x) :
    insert_walk sy iwa sz mt bm lm st pp [last] =
      { st with
        nodes_by_name := tree_update st.nodes_by_name pp (walk_update_node mt bm) } := by
  have h1 : tree_find (tree_update st.nodes_by_name pp (walk_update_node mt bm))
      (pp ++ [last]) = some x := by
    rw [tree_find_update_ne _ _ _ _ (path_snoc_ne pp last)]
    exact h
  rw [insert_walk]
  simp only [h1]

theorem insert_walk_leaf_new (sy : List Char) (iwa sz mt : Int) (bm lm : Nat)
    (st : TreeState) (pp : PathKey) (last : List Char)
    (h : tree_find st.nodes_by_name (pp ++ [last]) = none) :
    insert_walk sy iwa sz mt bm lm st pp [last] =
      { nodes_by_name :=
          tree_update
            (tree_update st.nodes_by_name pp (walk_update_node mt bm) ++
              [(pp ++ [last], ⟨last, sy, iwa, sz, mt, lm⟩)]) pp size_bump,
        nodes_by_index :=
          index_resize st.nodes_by_index iwa.toNat ++
            [some ⟨last, sy, iwa, sz, mt, lm⟩],
        block_count :=
          st.block_count + node_block_count ⟨last, sy, iwa, sz, mt, lm⟩ + 1 } := by
  have h1 : tree_find (tree_update st.nodes_by_name pp (walk_update_node mt bm))
      (pp ++ [last]) = none := by
    rw [tree_find_update_ne _ _ _ _ (path_snoc_ne pp last)]
    exact h
  rw [insert_walk]
  simp only [h1]

theorem insert_walk_cons_dir (sy : List Char) (iwa sz mt : Int) (bm lm : Nat)
    (st : TreeState) (pp : PathKey) (c c2 : List Char) (rest : List (List Char))
    (n : TNode) (h : tree_find st.nodes_by_name (pp ++ [c]) = some n)
    (hd : n.is_dir = true) :
    insert_walk sy iwa sz mt bm lm st pp (c :: c2 :: rest) =
      insert_walk sy iwa sz mt bm lm
        { st with
          nodes_by_name := tree_update st.nodes_by_name pp (walk_update_node mt bm) }
        (pp ++ [c]) (c2 :: rest) := by
  have h1 : tree_find (tree_update st.nodes_by_name pp (walk_update_node mt bm))
      (pp ++ [c]) = some n := by
    rw [tree_find_update_ne _ _ _ _ (path_snoc_ne pp c)]
    exact h
  rw [insert_walk]
  simp only [h1, hd]
  all_goals simp

theorem insert_walk_cons_nondir (sy : List Char) (iwa sz mt : Int) (bm lm : Nat)
    (st : TreeState) (pp : PathKey) (c c2 : List Char) (rest : List (List Char))
    (n : TNode) (h : tree_find st.nodes_by_name (pp ++ [c]) = some n)
    (hd : n.is_dir = false) :
    insert_walk sy iwa sz mt bm lm st pp (c :: c2 :: rest) =
      { st with
        nodes_by_name := tree_update st.nodes_by_name pp (walk_update_node mt bm) } := by
  have h1 : tree_find (tree_update st.nodes_by_name pp (walk_update_node mt bm))
      (pp ++ [c]) = some n := by
    rw [tree_find_update_ne _ _ _ _ (path_snoc_ne pp c)]
    exact h
  rw [insert_walk]
  simp only [h1, hd]
  all_goals simp

theorem insert_walk_cons_new (sy : List Char) (iwa sz mt : Int) (bm lm : Nat)
    (st : TreeState) (pp : PathKey) (c c2 : List Char) (rest : List (List Char))
    (h : tree_find st.nodes_by_name (pp ++ [c]) = none) :
    insert_walk sy iwa sz mt bm lm st pp (c :: c2 :: rest) =
      insert_walk sy iwa sz mt bm lm
        { nodes_by_name :=
            tree_update
              (tree_update st.nodes_by_name pp (walk_update_node mt bm) ++
                [(pp ++ [c], ⟨c, [], -1, 0, mt, bm⟩)]) pp size_bump,
          nodes_by_index := st.nodes_by_index,
          block_count := st.block_count + 1 }
        (pp ++ [c]) (c2 :: rest) := by
  have h1 : tree_find (tree_update st.nodes_by_name pp (walk_update_node mt bm))
      (pp ++ [c]) = none := by
    rw [tree_find_update_ne _ _ _ _ (path_snoc_ne pp c)]
    exact h
  rw [insert_walk]
  simp only [h1]
  all_goals simp

theorem NameInv_update_parent {L : List (PathKey × TNode)} {pp : PathKey}
    {pn : TNode} {mt : Int} {bm : Nat}
    (hinv : NameInv L)
    (hpp : tree_find L pp = some pn)
    (hdir : pn.is_dir = true)
    (hbm : bm &&& S_IFMT = S_IFDIR)
    (hanc : ∀ q mq, tree_find L q = some mq → q <+: pp → q ≠ pp →
      mt ≤ mq.mtime) :
    NameInv (tree_update L pp (walk_update_node mt bm)) := by
  obtain ⟨⟨rn, hrn, hrdir⟩, hpc, hmt, hmode⟩ := hinv
  refine ⟨?_, ?_, ?_, ?_⟩
  · by_cases hr : ([] : PathKey) = pp
    · refine ⟨walk_update_node mt bm rn, ?_, walk_update_dir hrdir hbm⟩
      rw [tree_find_update, if_pos hr, ← hr, hrn]
      rfl
    · exact ⟨rn, by rw [tree_find_update, if_neg hr]; exact hrn, hrdir⟩
  · intro p n hp q hq hqne
    rw [tree_find_update] at hp
    by_cases hppq : p = pp
    · subst hppq
      obtain ⟨m, hm, hmdir⟩ := hpc p pn hpp q hq hqne
      refine ⟨m, ?_, hmdir⟩
      rw [tree_find_update, if_neg hqne]
      exact hm
    · rw [if_neg hppq] at hp
      obtain ⟨m, hm, hmdir⟩ := hpc p n hp q hq hqne
      by_cases hqpp : q = pp
      · refine ⟨walk_update_node mt bm m, ?_, walk_update_dir hmdir hbm⟩
        rw [tree_find_update, if_pos hqpp, ← hqpp, hm]
        rfl
      · exact ⟨m, by rw [tree_find_update, if_neg hqpp]; exact hm, hmdir⟩
  · intro p q n m hp hq hpre hne
    rw [tree_find_update] at hp hq
    by_cases hqpp : q = pp
    · rw [if_pos hqpp, hpp] at hq
      simp only [Option.map_some', Option.some.injEq] at hq
      have hne2 : p ≠ pp := fun hx => hne (hx.trans hqpp.symm)
      have hpre2 : p <+: pp := hqpp ▸ hpre
      rw [if_neg hne2] at hp
      have h1 := hmt p pp n pn hp hpp hpre2 hne2
      have h2 := hanc p n hp hpre2 hne2
      rw [← hq]
      exact walk_update_mtime_le h1 h2
    · rw [if_neg hqpp] at hq
      by_cases hppp : p = pp
      · subst hppp
        rw [if_pos rfl, hpp] at hp
        simp only [Option.map_some', Option.some.injEq] at hp
        have h1 := hmt p q pn m hpp hq hpre hne
        rw [← hp]
        exact le_trans h1 walk_update_mtime_old
      · rw [if_neg hppp] at hp
        exact hmt p q n m hp hq hpre hne
  · intro p q n m hp hq hpre hne hnd
    rw [tree_find_update] at hp hq
    by_cases hqpp : q = pp
    · rw [if_pos hqpp, hpp] at hq
      simp only [Option.map_some', Option.some.injEq] at hq
      rw [← hq] at hnd
      rw [walk_update_dir hdir hbm] at hnd
      exact absurd hnd (by simp)
    · rw [if_neg hqpp] at hq
      by_cases hppp : p = pp
      · subst hppp
        rw [if_pos rfl, hpp] at hp
        simp only [Option.map_some', Option.some.injEq] at hp
        have h1 := hmode p q pn m hpp hq hpre hne hnd
        rw [← hp, walk_update_mode]
        exact bsub_trans h1 (bsub_or_left pn.mode bm)
      · rw [if_neg hppp] at hp
        exact hmode p q n m hp hq hpre hne hnd

theorem nil_ne_snoc (pp : PathKey) (x : List Char) : ([] : PathKey) ≠ pp ++ [x] := by
  intro h
  have := congrArg List.length h
  simp at this

theorem prefix_ne_snoc {q pp : PathKey} (x : List Char) (h : q <+: pp) :
    q ≠ pp ++ [x] := by
  intro he
  have hl := h.length_le
  rw [he] at hl
  simp at hl

theorem NameInv_insert_child {L : List (PathKey × TNode)} {pp : PathKey}
    {pn : TNode} {mt : Int} {bm : Nat} {x : List Char} {nd : TNode}
    (hinv : NameInv L)
    (hpp : tree_find L pp = some pn)
    (hdir : pn.is_dir = true)
    (hppmt : mt ≤ pn.mtime)
    (hppmode : bm ||| pn.mode = pn.mode)
    (hanc : ∀ q mq, tree_find L q = some mq → q <+: pp → q ≠ pp →
      bm ||| mq.mode = mq.mode ∧ mt ≤ mq.mtime)
    (habs : tree_find L (pp ++ [x]) = none)
    (hmtnd : nd.mtime = mt)
    (hnd : nd.is_dir = false → (branchBitsOf nd.mode ||| S_IFDIR) ||| bm = bm) :
    NameInv (tree_update (L ++ [(pp ++ [x], nd)]) pp size_bump) := by
  obtain ⟨⟨rn, hrn, hrdir⟩, hpc, hmt, hmode⟩ := hinv
  have hB : ∀ k n2,
      tree_find (tree_update (L ++ [(pp ++ [x], nd)]) pp size_bump) k = some n2 →
      (k = pp ++ [x] ∧ n2 = nd) ∨
      (k ≠ pp ++ [x] ∧ ∃ n0, tree_find L k = some n0 ∧ n2.mode = n0.mode ∧
        n2.mtime = n0.mtime ∧ n2.is_dir = n0.is_dir) := by
    intro k n2 h
    rw [find_ins L pp x nd k habs] at h
    by_cases hk : k = pp ++ [x]
    · rw [if_pos hk] at h
      exact Or.inl ⟨hk, (Option.some.inj h).symm⟩
    · rw [if_neg hk] at h
      by_cases hk2 : k = pp
      · rw [if_pos hk2, hpp] at h
        simp only [Option.map_some', Option.some.injEq] at h
        exact Or.inr ⟨hk, pn, by rw [hk2]; exact hpp,
          by rw [← h]; rfl, by rw [← h]; rfl, by rw [← h]; rfl⟩
      · rw [if_neg hk2] at h
        exact Or.inr ⟨hk, n2, h, rfl, rfl, rfl⟩
  have hF : ∀ k n0, k ≠ pp ++ [x] → tree_find L k = some n0 →
      ∃ n2, tree_find (tree_update (L ++ [(pp ++ [x], nd)]) pp size_bump) k =
          some n2 ∧
        n2.mode = n0.mode ∧ n2.mtime = n0.mtime ∧ n2.is_dir = n0.is_dir := by
    intro k n0 hk h
    rw [find_ins L pp x nd k habs, if_neg hk]
    by_cases hk2 : k = pp
    · rw [if_pos hk2, ← hk2, h]
      exact ⟨size_bump n0, rfl, rfl, rfl, rfl⟩
    · rw [if_neg hk2]
      exact ⟨n0, h, rfl, rfl, rfl⟩
  have habsF : tree_find (tree_update (L ++ [(pp ++ [x], nd)]) pp size_bump)
      (pp ++ [x]) = some nd := by
    rw [find_ins L pp x nd _ habs, if_pos rfl]
  have hnodesc : ∀ p n, tree_find L p = some n → pp ++ [x] <+: p →
      pp ++ [x] = p := by
    intro p n hp h1
    by_contra h2
    obtain ⟨m, hm, _⟩ := hpc p n hp (pp ++ [x]) h1 h2
    rw [habs] at hm
    exact Option.noConfusion hm
  refine ⟨?_, ?_, ?_, ?_⟩
  · obtain ⟨n2, hn2, _, _, hd2⟩ := hF [] rn (nil_ne_snoc pp x) hrn
    exact ⟨n2, hn2, hd2.trans hrdir⟩
  · intro p n hp q hq hqne
    rcases hB p n hp with ⟨hk, _⟩ | ⟨hk, n0, h0, _, _, _⟩
    · rw [hk] at hq hqne
      rcases List.prefix_concat_iff.mp hq with hcase | hcase
      · exact absurd hcase hqne
      · by_cases hq2 : q = pp
        · obtain ⟨n2, hn2, _, _, hd2⟩ :=
            hF pp pn (Ne.symm (path_snoc_ne pp x)) hpp
          exact ⟨n2, by rw [hq2]; exact hn2, hd2.trans hdir⟩
        · obtain ⟨m, hm, hmdir⟩ := hpc pp pn hpp q hcase hq2
          obtain ⟨n2, hn2, _, _, hd2⟩ := hF q m (prefix_ne_snoc x hcase) hm
          exact ⟨n2, hn2, hd2.trans hmdir⟩
    · obtain ⟨m, hm, hmdir⟩ := hpc p n0 h0 q hq hqne
      have hqabs : q ≠ pp ++ [x] := by
        intro he
        rw [he, habs] at hm
        exact Option.noConfusion hm
      obtain ⟨n2, hn2, _, _, hd2⟩ := hF q m hqabs hm
      exact ⟨n2, hn2, hd2.trans hmdir⟩
  · intro p q n m hp hq hpre hne
    rcases hB q m hq with ⟨hkq, hmnd⟩ | ⟨hkq, m0, hm0, _, hmt0, _⟩
    · rw [hkq] at hpre hne
      have hmmt : m.mtime = mt := by rw [hmnd, hmtnd]
      rcases List.prefix_concat_iff.mp hpre with hcase | hcase
      · exact absurd hcase hne
      · rcases hB p n hp with ⟨hkp, _⟩ | ⟨hkp, n0, h0, _, hmt1, _⟩
        · exact absurd hkp (prefix_ne_snoc x hcase)
        · by_cases hp2 : p = pp
          · have : n0 = pn := by
              rw [hp2, hpp] at h0
              exact (Option.some.inj h0).symm
            rw [hmmt, hmt1, this]
            exact hppmt
          · have := (hanc p n0 h0 hcase hp2).2
            rw [hmmt, hmt1]
            exact this
    · rcases hB p n hp with ⟨hkp, _⟩ | ⟨hkp, n0, h0, _, hmt1, _⟩
      · rw [hkp] at hpre hne
        exact absurd (hnodesc q m0 hm0 hpre) hne
      · have := hmt p q n0 m0 h0 hm0 hpre hne
        rw [hmt0, hmt1]
        exact this
  · intro p q n m hp hq hpre hne hmdir
    rcases hB q m hq with ⟨hkq, hmnd⟩ | ⟨hkq, m0, hm0, hmode0, _, hdir0⟩
    · rw [hkq] at hpre hne
      have hndd : nd.is_dir = false := by rw [← hmnd]; exact hmdir
      have hsub : (branchBitsOf m.mode ||| S_IFDIR) ||| bm = bm := by
        rw [hmnd]
        exact hnd hndd
      rcases List.prefix_concat_iff.mp hpre with hcase | hcase
      · exact absurd hcase hne
      · rcases hB p n hp with ⟨hkp, _⟩ | ⟨hkp, n0, h0, hmode1, _, _⟩
        · exact absurd hkp (prefix_ne_snoc x hcase)
        · by_cases hp2 : p = pp
          · have : n0 = pn := by
              rw [hp2, hpp] at h0
              exact (Option.some.inj h0).symm
            rw [hmode1, this]
            exact bsub_trans hsub hppmode
          · have := (hanc p n0 h0 hcase hp2).1
            rw [hmode1]
            exact bsub_trans hsub this
    · rcases hB p n hp with ⟨hkp, _⟩ | ⟨hkp, n0, h0, hmode1, _, _⟩
      · rw [hkp] at hpre hne
        exact absurd (hnodesc q m0 hm0 hpre) hne
      · have hm0d : m0.is_dir = false := by rw [← hdir0]; exact hmdir
        have := hmode p q n0 m0 h0 hm0 hpre hne hm0d
        rw [hmode1, hmode0]
        exact this

theorem insert_walk_inv (sy : List Char) (iwa sz mt : Int) (bm lm : Nat)
    (hbm : bm &&& S_IFMT = S_IFDIR)
    (hlm : S_ISDIR lm = false → (branchBitsOf lm ||| S_IFDIR) ||| bm = bm) :
    ∀ (comps : List (List Char)) (st : TreeState) (pp : PathKey) (pn : TNode),
      NameInv st.nodes_by_name →
      tree_find st.nodes_by_name pp = some pn →
      pn.is_dir = true →
      (∀ q mq, tree_find st.nodes_by_name q = some mq → q <+: pp → q ≠ pp →
        bm ||| mq.mode = mq.mode ∧ mt ≤ mq.mtime) →
      NameInv (insert_walk sy iwa sz mt bm lm st pp comps).nodes_by_name := by
  intro comps
  induction comps with
  | nil =>
    intro st pp pn hinv hpp hdir hanc
    rw [insert_walk_nil]
    exact NameInv_update_parent hinv hpp hdir hbm
      (fun q mq h1 h2 h3 => (hanc q mq h1 h2 h3).2)
  | cons c rest ih =>
    intro st pp pn hinv hpp hdir hanc
    have hinv1 : NameInv (tree_update st.nodes_by_name pp (walk_update_node mt bm)) :=
      NameInv_update_parent hinv hpp hdir hbm
        (fun q mq h1 h2 h3 => (hanc q mq h1 h2 h3).2)
    have hpp1 : tree_find (tree_update st.nodes_by_name pp (walk_update_node mt bm))
        pp = some (walk_update_node mt bm pn) := by
      rw [tree_find_update_eq, hpp]
      rfl
    have hdir1 : (walk_update_node mt bm pn).is_dir = true := walk_update_dir hdir hbm
    have hppmt1 : mt ≤ (walk_update_node mt bm pn).mtime := walk_update_mtime_new
    have hppmode1 : bm ||| (walk_update_node mt bm pn).mode =
        (walk_update_node mt bm pn).mode := by
      rw [walk_update_mode]
      exact bsub_or_right bm pn.mode
    have hanc1 : ∀ q mq,
        tree_find (tree_update st.nodes_by_name pp (walk_update_node mt bm)) q =
          some mq → q <+: pp → q ≠ pp →
        bm ||| mq.mode = mq.mode ∧ mt ≤ mq.mtime := by
      intro q mq h1 h2 h3
      rw [tree_find_update, if_neg h3] at h1
      exact hanc q mq h1 h2 h3
    have hancsub : ∀ q mq,
        tree_find (tree_update st.nodes_by_name pp (walk_update_node mt bm)) q =
          some mq → q <+: pp ++ [c] → q ≠ pp ++ [c] →
        bm ||| mq.mode = mq.mode ∧ mt ≤ mq.mtime := by
      intro q mq h1 h2 h3
      rcases List.prefix_concat_iff.mp h2 with hcase | hcase
      · exact absurd hcase h3
      · by_cases hq2 : q = pp
        · have : mq = walk_update_node mt bm pn := by
            rw [hq2, hpp1] at h1
            exact (Option.some.inj h1).symm
          rw [this]
          exact ⟨hppmode1, hppmt1⟩
        · exact hanc1 q mq h1 hcase hq2
    cases rest with
    | nil =>
      cases hfind : tree_find st.nodes_by_name (pp ++ [c]) with
      | some x =>
        rw [insert_walk_leaf_hit sy iwa sz mt bm lm st pp c x hfind]
        exact NameInv_update_parent hinv hpp hdir hbm
          (fun q mq h1 h2 h3 => (hanc q mq h1 h2 h3).2)
      | none =>
        rw [insert_walk_leaf_new sy iwa sz mt bm lm st pp c hfind]
        have habs1 : tree_find
            (tree_update st.nodes_by_name pp (walk_update_node mt bm))
            (pp ++ [c]) = none := by
          rw [tree_find_update_ne _ _ _ _ (path_snoc_ne pp c)]
          exact hfind
        exact NameInv_insert_child hinv1 hpp1 hdir1 hppmt1 hppmode1 hanc1 habs1
          rfl (fun _ => hlm (by assumption))
    | cons c2 rest2 =>
      cases hfind : tree_find st.nodes_by_name (pp ++ [c]) with
      | some n =>
        by_cases hd : n.is_dir = true
        · rw [insert_walk_cons_dir sy iwa sz mt bm lm st pp c c2 rest2 n hfind hd]
          have hpp2 : tree_find
              (tree_update st.nodes_by_name pp (walk_update_node mt bm))
              (pp ++ [c]) = some n := by
            rw [tree_find_update_ne _ _ _ _ (path_snoc_ne pp c)]
            exact hfind
          exact ih _ _ n hinv1 hpp2 hd hancsub
        · have hd2 : n.is_dir = false := by
            simpa using hd
          rw [insert_walk_cons_nondir sy iwa sz mt bm lm st pp c c2 rest2 n hfind hd2]
          exact NameInv_update_parent hinv hpp hdir hbm
            (fun q mq h1 h2 h3 => (hanc q mq h1 h2 h3).2)
      | none =>
        rw [insert_walk_cons_new sy iwa sz mt bm lm st pp c c2 rest2 hfind]
        have habs1 : tree_find
            (tree_update st.nodes_by_name pp (walk_update_node mt bm))
            (pp ++ [c]) = none := by
          rw [tree_find_update_ne _ _ _ _ (path_snoc_ne pp c)]
          exact hfind
        have hddir : (⟨c, [], -1, 0, mt, bm⟩ : TNode).is_dir = true := by
          simp [TNode.is_dir, S_ISDIR, hbm]
        have hinv3 : NameInv (tree_update
            (tree_update st.nodes_by_name pp (walk_update_node mt bm) ++
              [(pp ++ [c], ⟨c, [], -1, 0, mt, bm⟩)]) pp size_bump) :=
          NameInv_insert_child hinv1 hpp1 hdir1 hppmt1 hppmode1 hanc1 habs1
            rfl (fun hf => absurd hddir (by simp [hf]))
        have hppd : tree_find (tree_update
            (tree_update st.nodes_by_name pp (walk_update_node mt bm) ++
              [(pp ++ [c], ⟨c, [], -1, 0, mt, bm⟩)]) pp size_bump)
            (pp ++ [c]) = some ⟨c, [], -1, 0, mt, bm⟩ := by
          rw [find_ins _ pp c _ _ habs1, if_pos rfl]
        have hanc3 : ∀ q mq, tree_find (tree_update
            (tree_update st.nodes_by_name pp (walk_update_node mt bm) ++
              [(pp ++ [c], ⟨c, [], -1, 0, mt, bm⟩)]) pp size_bump) q = some mq →
            q <+: pp ++ [c] → q ≠ pp ++ [c] →
            bm ||| mq.mode = mq.mode ∧ mt ≤ mq.mtime := by
          intro q mq h1 h2 h3
          rw [find_ins _ pp c _ _ habs1, if_neg h3] at h1
          rcases List.prefix_concat_iff.mp h2 with hcase | hcase
          · exact absurd hcase h3
          · by_cases hq2 : q = pp
            · rw [if_pos hq2, hpp1] at h1
              simp only [Option.map_some', Option.some.injEq] at h1
              rw [← h1]
              exact ⟨hppmode1, hppmt1⟩
            · rw [if_neg hq2] at h1
              exact hanc1 q mq h1 hcase hq2
        exact ih _ _ _ hinv3 hppd hddir hanc3

theorem find_walk_update (L : List (PathKey × TNode)) (pp : PathKey) (mt : Int)
    (bm : Nat) (k : PathKey) {n : TNode} (h : tree_find L k = some n) :
    ∃ n2, tree_find (tree_update L pp (walk_update_node mt bm)) k = some n2 ∧
      n.mode ||| n2.mode = n2.mode ∧ n.mtime ≤ n2.mtime := by
  rw [tree_find_update]
  by_cases hk : k = pp
  · rw [if_pos hk, ← hk, h]
    refine ⟨walk_update_node mt bm n, rfl, ?_, walk_update_mtime_old⟩
    rw [walk_update_mode]
    exact bsub_or_left n.mode bm
  · rw [if_neg hk, h]
    exact ⟨n, rfl, Nat.or_self _, le_refl _⟩

theorem find_ins_persist (L : List (PathKey × TNode)) (pp : PathKey)
    (x : List Char) (nd : TNode) (k : PathKey) {n : TNode}
    (habs : tree_find L (pp ++ [x]) = none) (h : tree_find L k = some n) :
    ∃ n2, tree_find (tree_update (L ++ [(pp ++ [x], nd)]) pp size_bump) k =
        some n2 ∧ n.mode ||| n2.mode = n2.mode ∧ n.mtime ≤ n2.mtime := by
  have hk : k ≠ pp ++ [x] := by
    intro he
    rw [he, habs] at h
    exact Option.noConfusion h
  rw [find_ins L pp x nd k habs, if_neg hk]
  by_cases hk2 : k = pp
  · rw [if_pos hk2, ← hk2, h]
    exact ⟨size_bump n, rfl, Nat.or_self _, le_refl _⟩
  · rw [if_neg hk2, h]
    exact ⟨n, rfl, Nat.or_self _, le_refl _⟩

theorem insert_walk_persist (sy : List Char) (iwa sz mt : Int) (bm lm : Nat) :
    ∀ (comps : List (List Char)) (st : TreeState) (pp k : PathKey) (n : TNode),
      tree_find st.nodes_by_name k = some n →
      ∃ n2, tree_find (insert_walk sy iwa sz mt bm lm st pp comps).nodes_by_name
          k = some n2 ∧ n.mode ||| n2.mode = n2.mode ∧ n.mtime ≤ n2.mtime := by
  intro comps
  induction comps with
  | nil =>
    intro st pp k n h
    rw [insert_walk_nil]
    exact find_walk_update st.nodes_by_name pp mt bm k h
  | cons c rest ih =>
    intro st pp k n h
    obtain ⟨n1, h1, hm1, ht1⟩ := find_walk_update st.nodes_by_name pp mt bm k h
    cases rest with
    | nil =>
      cases hfind : tree_find st.nodes_by_name (pp ++ [c]) with
      | some x =>
        rw [insert_walk_leaf_hit sy iwa sz mt bm lm st pp c x hfind]
        exact ⟨n1, h1, hm1, ht1⟩
      | none =>
        rw [insert_walk_leaf_new sy iwa sz mt bm lm st pp c hfind]
        have habs1 : tree_find
            (tree_update st.nodes_by_name pp (walk_update_node mt bm))
            (pp ++ [c]) = none := by
          rw [tree_find_update_ne _ _ _ _ (path_snoc_ne pp c)]
          exact hfind
        obtain ⟨n2, h2, hm2, ht2⟩ := find_ins_persist _ pp c
          ⟨c, sy, iwa, sz, mt, lm⟩ k habs1 h1
        exact ⟨n2, h2, bsub_trans hm1 hm2, le_trans ht1 ht2⟩
    | cons c2 rest2 =>
      cases hfind : tree_find st.nodes_by_name (pp ++ [c]) with
      | some nn =>
        by_cases hd : nn.is_dir = true
        · rw [insert_walk_cons_dir sy iwa sz mt bm lm st pp c c2 rest2 nn hfind hd]
          obtain ⟨n2, h2, hm2, ht2⟩ := ih
            { st with
              nodes_by_name :=
                tree_update st.nodes_by_name pp (walk_update_node mt bm) }
            (pp ++ [c]) k n1 h1
          exact ⟨n2, h2, bsub_trans hm1 hm2, le_trans ht1 ht2⟩
        · have hd2 : nn.is_dir = false := by simpa using hd
          rw [insert_walk_cons_nondir sy iwa sz mt bm lm st pp c c2 rest2 nn
            hfind hd2]
          exact ⟨n1, h1, hm1, ht1⟩
      | none =>
        rw [insert_walk_cons_new sy iwa sz mt bm lm st pp c c2 rest2 hfind]
        have habs1 : tree_find
            (tree_update st.nodes_by_name pp (walk_update_node mt bm))
            (pp ++ [c]) = none := by
          rw [tree_find_update_ne _ _ _ _ (path_snoc_ne pp c)]
          exact hfind
        obtain ⟨n2, h2, hm2, ht2⟩ := find_ins_persist _ pp c
          ⟨c, [], -1, 0, mt, bm⟩ k habs1 h1
        obtain ⟨n3, h3, hm3, ht3⟩ := ih
          { nodes_by_name :=
              tree_update
                (tree_update st.nodes_by_name pp (walk_update_node mt bm) ++
                  [(pp ++ [c], ⟨c, [], -1, 0, mt, bm⟩)]) pp size_bump,
            nodes_by_index := st.nodes_by_index,
            block_count := st.block_count + 1 }
          (pp ++ [c]) k n2 h2
        exact ⟨n3, h3, bsub_trans (bsub_trans hm1 hm2) hm3,
          le_trans (le_trans ht1 ht2) ht3⟩

theorem tree_find_singleton (k0 : PathKey) (n0 : TNode) (k : PathKey) :
    tree_find [(k0, n0)] k = if k0 = k then some n0 else none := by
  by_cases h : k0 = k
  · simp [tree_find, List.find?, h]
  · simp [tree_find, List.find?, h]

theorem NameInv_initial : NameInv initial_tree.nodes_by_name := by
  have hkey : ∀ p n, tree_find initial_tree.nodes_by_name p = some n →
      p = [] ∧ n = root_node := by
    intro p n h
    rw [show initial_tree.nodes_by_name = [([], root_node)] from rfl,
      tree_find_singleton] at h
    by_cases hp : (([] : PathKey) = p)
    · rw [if_pos hp] at h
      exact ⟨hp.symm, (Option.some.inj h).symm⟩
    · rw [if_neg hp] at h
      exact Option.noConfusion h
  refine ⟨⟨root_node, by rw [show initial_tree.nodes_by_name = [([], root_node)]
    from rfl, tree_find_singleton, if_pos rfl], by decide⟩, ?_, ?_, ?_⟩
  · intro p n hp q hq hqne
    obtain ⟨hp1, _⟩ := hkey p n hp
    rw [hp1] at hq
    exact absurd (List.prefix_nil.mp hq) (hp1 ▸ hqne)
  · intro p q n m hp hq hpre hne
    obtain ⟨hp1, _⟩ := hkey p n hp
    obtain ⟨hq1, _⟩ := hkey q m hq
    exact absurd (hp1.trans hq1.symm) hne
  · intro p q n m hp hq hpre hne _
    obtain ⟨hp1, _⟩ := hkey p n hp
    obtain ⟨hq1, _⟩ := hkey q m hq
    exact absurd (hp1.trans hq1.symm) hne

theorem leaf_branch_sub (mode : Nat) (F : Nat) (hF5 : F &&& 0o555 = 0)
    (hF4 : F &&& 0o444 = 0) :
    (branchBitsOf ((mode &&& 0o555) ||| F) ||| S_IFDIR) |||
      ((mode &&& 0o555) ||| ((mode &&& 0o555 &&& 0o444) >>> 2) ||| S_IFDIR) =
      (mode &&& 0o555) ||| ((mode &&& 0o555 &&& 0o444) >>> 2) ||| S_IFDIR := by
  rw [branchBits_leaf mode F hF5 hF4]
  exact Nat.or_self _

theorem insert_leaf_node_inv (st : TreeState) (pathname symlink : List Char)
    (iwa sz mt : Int) (mode : Nat) (hinv : NameInv st.nodes_by_name) :
    NameInv (insert_leaf_node st pathname symlink iwa sz mt mode).2.nodes_by_name := by
  obtain ⟨rn, hrn, hrdir⟩ := hinv.1
  unfold insert_leaf_node
  by_cases hi : iwa < 0
  · rw [if_pos hi]
    exact hinv
  · rw [if_neg hi]
    cases pathname with
    | nil => exact hinv
    | cons c body =>
      by_cases hc : c = '/'
      · subst hc
        show NameInv (insert_walk symlink iwa sz mt
          ((mode &&& 0o555) ||| ((mode &&& 0o555 &&& 0o444) >>> 2) ||| S_IFDIR)
          ((mode &&& 0o555) ||| (if symlink = [] then S_IFREG else S_IFLNK))
          st [] (componentsOf body)).nodes_by_name
        apply insert_walk_inv _ _ _ _ _ _ (branch_mode_dirtype mode) _
          (componentsOf body) st [] rn hinv hrn hrdir
        · intro q mq h1 h2 h3
          exact absurd (List.prefix_nil.mp h2) h3
        · intro _
          by_cases hs : symlink = []
          · rw [if_pos hs]
            exact leaf_branch_sub mode S_IFREG (by decide) (by decide)
          · rw [if_neg hs]
            exact leaf_branch_sub mode S_IFLNK (by decide) (by decide)
      · have : (c == '/') = false := by simpa using hc
        simp only [this]
        show NameInv (if c = '/' then _ else (0, st)).2.nodes_by_name
        rw [if_neg hc]
        exact hinv

theorem insert_leaf_inv (st : TreeState) (raw_pathname symlink_raw : List Char)
    (iwa sz mt : Int) (mode : Nat) (hinv : NameInv st.nodes_by_name) :
    NameInv (insert_leaf st raw_pathname symlink_raw iwa sz mt mode).2.nodes_by_name := by
  unfold insert_leaf
  by_cases h1 : normalize_pathname raw_pathname = []
  · rw [if_pos h1]
    exact hinv
  · rw [if_neg h1]
    by_cases h2 : (S_ISBLK mode || S_ISCHR mode || S_ISFIFO mode || S_ISSOCK mode) = true
    · rw [if_pos h2]
      exact hinv
    · rw [if_neg h2]
      by_cases h3 : S_ISLNK mode ∧ (if S_ISLNK mode then symlink_raw else []) = []
      · rw [if_pos h3]
        exact hinv
      · rw [if_neg h3]
        exact insert_leaf_node_inv _ _ _ _ _ _ _ hinv

theorem build_tree_aux_inv :
    ∀ (entries : List EntrySpec) (st : TreeState) (i : Int),
      NameInv st.nodes_by_name →
      NameInv (build_tree_aux st i entries).nodes_by_name := by
  intro entries
  induction entries with
  | nil =>
    intro st i h
    exact h
  | cons e rest ih =>
    intro st i h
    rw [build_tree_aux]
    by_cases hd : S_ISDIR e.mode = true
    · rw [if_pos hd]
      exact ih st (i + 1) h
    · rw [if_neg hd]
      by_cases hr : (insert_leaf st e.raw_pathname e.symlink i e.size e.mtime
          e.mode).1 ≠ 0
      · rw [if_pos hr]
        exact insert_leaf_inv _ _ _ _ _ _ _ h
      · rw [if_neg hr]
        exact ih _ (i + 1) (insert_leaf_inv _ _ _ _ _ _ _ h)

theorem buildTree_inv (entries : List EntrySpec) :
    NameInv (buildTree entries).nodes_by_name :=
  build_tree_aux_inv entries initial_tree 0 NameInv_initial

/-- C7 (falsified as stated): after bootstrapping c7_entries (a regular file
/a/b followed by an entry a/b/c whose ancestor a/b is not a directory, so it
is skipped), the directory /a is NOT the union of its inserted leaf
descendants' propagated bits with the directory type: the skipped entry's
branch bits were already merged into /a before the collision was noticed. -/
theorem tree_dir_mode_counterexample :
    ∃ n b, tree_find (buildTree c7_entries).nodes_by_name [['a']] = some n ∧
      n.is_dir = true ∧
      tree_find (buildTree c7_entries).nodes_by_name [['a'], ['b']] = some b ∧
      b.is_dir = false ∧
      (buildTree c7_entries).nodes_by_name.map Prod.fst =
        [[], [['a']], [['a'], ['b']]] ∧
      n.mode ≠ S_IFDIR ||| branchBitsOf b.mode :=
  ⟨⟨['a'], [], -1, 512, 200, 0o40555⟩, ⟨['b'], [], 0, 3, 100, 0o100400⟩,
    by decide, by decide, by decide, by decide, by decide, by decide⟩

/-- C7 (amended): after bootstrap, every strict ancestor of a present node is
a present directory; a directory's mode contains the directory-type bit; a
node's mtime is at least the mtime of every descendant; and a node's mode
contains the directory-type bit together with the propagated branch bits of
every non-directory descendant (a superset, not an equality: collided
entries may have widened it too). -/
theorem tree_dir_mode_mtime_spec (entries : List EntrySpec) (p : PathKey)
    (n : TNode)
    (hp : tree_find (buildTree entries).nodes_by_name p = some n) :
    (∀ q, q <+: p → q ≠ p →
      ∃ m, tree_find (buildTree entries).nodes_by_name q = some m ∧
        m.is_dir = true) ∧
    (n.is_dir = true → S_IFDIR ||| n.mode = n.mode) ∧
    (∀ q m, tree_find (buildTree entries).nodes_by_name q = some m →
      p <+: q → p ≠ q →
      m.mtime ≤ n.mtime ∧
      (m.is_dir = false →
        (branchBitsOf m.mode ||| S_IFDIR) ||| n.mode = n.mode)) := by
  obtain ⟨hroot, hpc, hmt, hmode⟩ := buildTree_inv entries
  refine ⟨fun q hq hne => hpc p n hp q hq hne, fun hd => ?_,
    fun q m hm hpre hne => ⟨hmt p q n m hp hm hpre hne,
      fun hmd => hmode p q n m hp hm hpre hne hmd⟩⟩
  apply ifdir_sub_of_dir
  simpa [TNode.is_dir, S_ISDIR] using hd

theorem tree_dir_mode_mtime_spec_witness :
    ((⟨['b'], [], 0, 3, 100, 0o100400⟩ : TNode).mtime ≤
      (⟨['a'], [], -1, 512, 200, 0o40555⟩ : TNode).mtime ∧
      (branchBitsOf (⟨['b'], [], 0, 3, 100, 0o100400⟩ : TNode).mode |||
          S_IFDIR) ||| (⟨['a'], [], -1, 512, 200, 0o40555⟩ : TNode).mode =
        (⟨['a'], [], -1, 512, 200, 0o40555⟩ : TNode).mode) ∧
    S_IFDIR ||| (⟨['a'], [], -1, 512, 200, 0o40555⟩ : TNode).mode =
      (⟨['a'], [], -1, 512, 200, 0o40555⟩ : TNode).mode := by
  have h := tree_dir_mode_mtime_spec c7_entries [['a']]
    ⟨['a'], [], -1, 512, 200, 0o40555⟩ (by decide)
  refine ⟨?_, h.2.1 (by decide)⟩
  have h2 := h.2.2 [['a'], ['b']] ⟨['b'], [], 0, 3, 100, 0o100400⟩
    (by decide) (by decide) (by decide)
  exact ⟨h2.1, h2.2 (by decide)⟩

/-- C10: leaf insertion is not atomic: on a terminal name collision or a
non-terminal collision with a non-directory the walk stops, inserting no
node for the leaf, but the parent visited in that step has already been
updated (mtime raised to the entry's, mode widened with branch_mode) -- and
on a missing intermediate component an implicit directory is created and
charged before descending; all nodes present before any step persist, with
modes only widened and mtimes only raised. -/
theorem insert_collision_nonatomic_spec (sy : List Char) (iwa sz mt : Int)
    (bm lm : Nat) (st : TreeState) (pp : PathKey) :
    (∀ last x, tree_find st.nodes_by_name (pp ++ [last]) = some x →
      insert_walk sy iwa sz mt bm lm st pp [last] =
        { st with
          nodes_by_name :=
            tree_update st.nodes_by_name pp (walk_update_node mt bm) }) ∧
    (∀ c c2 rest n, tree_find st.nodes_by_name (pp ++ [c]) = some n →
      n.is_dir = false →
      insert_walk sy iwa sz mt bm lm st pp (c :: c2 :: rest) =
        { st with
          nodes_by_name :=
            tree_update st.nodes_by_name pp (walk_update_node mt bm) }) ∧
    (∀ c c2 rest, tree_find st.nodes_by_name (pp ++ [c]) = none →
      insert_walk sy iwa sz mt bm lm st pp (c :: c2 :: rest) =
        insert_walk sy iwa sz mt bm lm
          { nodes_by_name := tree_update
              (tree_update st.nodes_by_name pp (walk_update_node mt bm) ++
                [(pp ++ [c], ⟨c, [], -1, 0, mt, bm⟩)]) pp size_bump,
            nodes_by_index := st.nodes_by_index,
            block_count := st.block_count + 1 }
          (pp ++ [c]) (c2 :: rest)) ∧
    (∀ comps k n, tree_find st.nodes_by_name k = some n →
      ∃ n2, tree_find (insert_walk sy iwa sz mt bm lm st pp comps).nodes_by_name
          k = some n2 ∧ n.mode ||| n2.mode = n2.mode ∧ n.mtime ≤ n2.mtime) :=
  ⟨fun last x h => insert_walk_leaf_hit sy iwa sz mt bm lm st pp last x h,
   fun c c2 rest n h hd =>
     insert_walk_cons_nondir sy iwa sz mt bm lm st pp c c2 rest n h hd,
   fun c c2 rest h => insert_walk_cons_new sy iwa sz mt bm lm st pp c c2 rest h,
   fun comps k n h => insert_walk_persist sy iwa sz mt bm lm comps st pp k n h⟩

theorem insert_collision_nonatomic_spec_witness :
    (insert_walk [] 1 4 7 0o40500 0o100400 c10_st [] [['a']] =
      { c10_st with
        nodes_by_name :=
          tree_update c10_st.nodes_by_name [] (walk_update_node 7 0o40500) }) ∧
    (insert_walk [] 1 4 7 0o40500 0o100400 c10_st [] [['a'], ['b']] =
      { c10_st with
        nodes_by_name :=
          tree_update c10_st.nodes_by_name [] (walk_update_node 7 0o40500) }) ∧
    (insert_walk [] 1 4 7 0o40500 0o100400 c10_st [] [['z'], ['b']] =
      insert_walk [] 1 4 7 0o40500 0o100400
        { nodes_by_name := tree_update
            (tree_update c10_st.nodes_by_name [] (walk_update_node 7 0o40500) ++
              [([['z']], ⟨['z'], [], -1, 0, 7, 0o40500⟩)]) [] size_bump,
          nodes_by_index := c10_st.nodes_by_index,
          block_count := c10_st.block_count + 1 }
        [['z']] [['b']]) ∧
    (∃ n2, tree_find (insert_walk [] 1 4 7 0o40500 0o100400 c10_st []
        [['a']]).nodes_by_name [['a']] = some n2 ∧
      (⟨['a'], [], 0, 0, 0, S_IFREG⟩ : TNode).mode ||| n2.mode = n2.mode ∧
      (⟨['a'], [], 0, 0, 0, S_IFREG⟩ : TNode).mtime ≤ n2.mtime) := by
  refine ⟨?_, ?_, ?_, ?_⟩
  · exact (insert_collision_nonatomic_spec [] 1 4 7 0o40500 0o100400 c10_st
      []).1 ['a'] ⟨['a'], [], 0, 0, 0, S_IFREG⟩ (by decide)
  · exact (insert_collision_nonatomic_spec [] 1 4 7 0o40500 0o100400 c10_st
      []).2.1 ['a'] ['b'] [] ⟨['a'], [], 0, 0, 0, S_IFREG⟩ (by decide) (by decide)
  · exact (insert_collision_nonatomic_spec [] 1 4 7 0o40500 0o100400 c10_st
      []).2.2.1 ['z'] ['b'] [] (by decide)
  · exact (insert_collision_nonatomic_spec [] 1 4 7 0o40500 0o100400 c10_st
      []).2.2.2 [['a']] [['a']] ⟨['a'], [], 0, 0, 0, S_IFREG⟩ (by decide)
